import Mathlib

/-!
# shape_mask: grid geometry, ring store, quadrant rasterization, mask file and argument handling

A shallow embedding of `main.cpp` and `maskThread.cpp`.

Modelling conventions.

* `double` values are rationals (`ℚ`).  `gridGeometry` and the cell centres of
  `run` compute in exact arithmetic.  Where the rounding of the double
  operations decides a statement, the code is given with the rounding of
  every double operation as a parameter (`gridGeometryRounded`, `percent`);
  `roundDouble` is the rounding of binary64, to nearest with ties to even.
* `int32_t` values are integers (`Int`).  The two `int32_t` expressions of the
  rasterization that leave the 32-bit range on a large grid, the block size
  `dim_x * dim_y` and the flat index `i * width + j`, are reduced to 32 bits
  (`wrap32`): signed overflow is taken as the two's complement wrap-around.
  The sums `start + dim` of the loop bounds and the differences
  `dim - half_range` are not reduced; on the grids that the geometry yields
  they lie between `-|dim|` and `|dim|`.  The conversion `(int32_t) d` of a
  double is the truncation of `d` (`toInt32`), whatever the size of `d`.
* `uint8_t` flags stored in the raster are natural numbers (`NVTrue = 1`,
  `NVFalse = 0`); the `water` flag, only ever assigned `NVFalse` or `NVTrue`,
  is a `Bool`.
* The routines of the `nvutility` library that the program calls (`newgp`,
  `inside_polygon2`, `get_area_mbr`) are not part of the source tree.  The
  angular steps that `newgp` yields and the envelope that `get_area_mbr`
  yields are inputs of the model; the point-in-ring test is a parameter of the
  rasterization, and one concrete crossing test is provided for the worked
  scenario.
* The shapes that `SHPReadObject` returns are an input of the shape reading
  loop, and the header text that the `fprintf` calls write is an input of the
  mask file.
* The four worker threads are modelled by the sequences of stores they perform
  on the shared block; running them concurrently is modelled by interleaving
  these sequences.
-/

namespace ShapeMask

/-! ## Grid geometry (`main.cpp`, lines 177-205) -/

/-- An `NV_F64_XYMBR`: minimum bounding rectangle in decimal degrees. -/
structure Mbr where
  min_x : ℚ
  min_y : ℚ
  max_x : ℚ
  max_y : ℚ
deriving DecidableEq, Repr

/-- The C conversion `(int32_t) d` of a `double`: truncation toward zero. -/
def toInt32 (d : ℚ) : Int :=
  if d < 0 then ⌈d⌉ else ⌊d⌋

/-- The value of an `int32_t` expression whose mathematical result is `z`: the
two's complement reading of the low 32 bits of `z`. -/
def wrap32 (z : Int) : Int :=
  (z + 2147483648) % 4294967296 - 2147483648

/-- Modelled from the spec: the `NINT` macro of `nvutility.h` (not in the source
tree), which the spec calls `round`: nearest integer, halves away from zero,
computed as `(a) < 0.0 ? (int32_t) ((a) - 0.5) : (int32_t) ((a) + 0.5)`. -/
def NINT (a : ℚ) : Int :=
  if a < 0 then toInt32 (a - 1 / 2) else toInt32 (a + 1 / 2)

/-- The variables of `main` once the grid geometry has been computed
(after line 205): the centre of the area envelope, the angular steps, the
ranges and half ranges, the recentred envelope `mbr` and the dimensions. -/
structure Grid where
  center_x : ℚ
  center_y : ℚ
  x_resolution : ℚ
  y_resolution : ℚ
  range_x : Int
  range_y : Int
  half_range_x : Int
  half_range_y : Int
  mbr : Mbr
  dim_x : Int
  dim_y : Int
deriving DecidableEq, Repr

/-- Lines 177-205 of `main.cpp`, the double operations taken in exact
arithmetic (`gridGeometryRounded` has them with their rounding).  `mbr` is the
envelope of the area file, `x_resolution` and `y_resolution` the angular steps
obtained from `newgp`.  `range / 2` on `int32_t` is C division, which
truncates toward zero (`Int.tdiv`).  The code has no test on the resolutions
and no error exit anywhere in this computation. -/
def gridGeometry (mbr : Mbr) (x_resolution y_resolution : ℚ) : Grid :=
  let center_x := mbr.min_x + (mbr.max_x - mbr.min_x) / 2
  let center_y := mbr.min_y + (mbr.max_y - mbr.min_y) / 2
  let range_x := toInt32 ((mbr.max_x - mbr.min_x) / x_resolution) + 1
  let range_y := toInt32 ((mbr.max_y - mbr.min_y) / y_resolution) + 1
  let half_range_x := Int.tdiv range_x 2
  let half_range_y := Int.tdiv range_y 2
  let min_x := center_x - (half_range_x : ℚ) * x_resolution
  let max_x := center_x + (half_range_x : ℚ) * x_resolution
  let min_y := center_y - (half_range_y : ℚ) * y_resolution
  let max_y := center_y + (half_range_y : ℚ) * y_resolution
  let dim_x := NINT ((max_x - min_x) / x_resolution)
  let dim_y := NINT ((max_y - min_y) / y_resolution)
  { center_x := center_x
    center_y := center_y
    x_resolution := x_resolution
    y_resolution := y_resolution
    range_x := range_x
    range_y := range_y
    half_range_x := half_range_x
    half_range_y := half_range_y
    mbr := { min_x := min_x, min_y := min_y, max_x := max_x, max_y := max_y }
    dim_x := dim_x
    dim_y := dim_y }

/-! ## Grid geometry with rounded double operations -/

/-- The power `2 ^ e` for an integer exponent. -/
def pow2 (e : Int) : ℚ :=
  if 0 ≤ e then ((2 ^ e.toNat : Nat) : ℚ) else 1 / ((2 ^ (-e).toNat : Nat) : ℚ)

/-- The integer nearest to `s`, the even one of the two when `s` lies halfway. -/
def roundHalfEven (s : ℚ) : Int :=
  if s - ⌊s⌋ < 1 / 2 then ⌊s⌋
  else if 1 / 2 < s - ⌊s⌋ then ⌊s⌋ + 1
  else if ⌊s⌋ % 2 = 0 then ⌊s⌋ else ⌊s⌋ + 1

/-- The number of binary digits of `n`, for `n ≤ fuel`. -/
def bitLength : Nat → Nat → Nat
  | 0, _ => 0
  | fuel + 1, n => if n = 0 then 0 else bitLength fuel (n / 2) + 1

/-- The double nearest to a positive rational `q`: `q` is scaled by a power of
2 into `[2^52, 2^53)`, rounded to an integer, and scaled back. -/
def roundPos (q : ℚ) : ℚ :=
  let e0 : Int := (bitLength q.num.natAbs q.num.natAbs : Int) - (bitLength q.den q.den : Int) - 53
  let e : Int := if pow2 53 ≤ q / pow2 e0 then e0 + 1 else e0
  (roundHalfEven (q / pow2 e) : ℚ) * pow2 e

/-- The rounding of binary64 arithmetic: the double nearest to `q`, ties to
even, with a 53-bit significand (the exponent range of binary64, far beyond
the magnitudes that occur here, is not modelled). -/
def roundDouble (q : ℚ) : ℚ :=
  if q = 0 then 0 else if q < 0 then - roundPos (-q) else roundPos q

/-- The `NINT` macro with its double addition or subtraction rounded by `fl`. -/
def NINTRounded (fl : ℚ → ℚ) (a : ℚ) : Int :=
  if a < 0 then toInt32 (fl (a - 1 / 2)) else toInt32 (fl (a + 1 / 2))

/-- Lines 177-205 of `main.cpp` with the result of every double operation
rounded by `fl`; the conversions of `int32_t` values to double are exact.
With `fl` the identity this is `gridGeometry`. -/
def gridGeometryRounded (fl : ℚ → ℚ) (mbr : Mbr) (x_resolution y_resolution : ℚ) : Grid :=
  let center_x := fl (mbr.min_x + fl (fl (mbr.max_x - mbr.min_x) / 2))
  let center_y := fl (mbr.min_y + fl (fl (mbr.max_y - mbr.min_y) / 2))
  let range_x := toInt32 (fl (fl (mbr.max_x - mbr.min_x) / x_resolution)) + 1
  let range_y := toInt32 (fl (fl (mbr.max_y - mbr.min_y) / y_resolution)) + 1
  let half_range_x := Int.tdiv range_x 2
  let half_range_y := Int.tdiv range_y 2
  let min_x := fl (center_x - fl ((half_range_x : ℚ) * x_resolution))
  let max_x := fl (center_x + fl ((half_range_x : ℚ) * x_resolution))
  let min_y := fl (center_y - fl ((half_range_y : ℚ) * y_resolution))
  let max_y := fl (center_y + fl ((half_range_y : ℚ) * y_resolution))
  let dim_x := NINTRounded fl (fl (fl (max_x - min_x) / x_resolution))
  let dim_y := NINTRounded fl (fl (fl (max_y - min_y) / y_resolution))
  { center_x := center_x
    center_y := center_y
    x_resolution := x_resolution
    y_resolution := y_resolution
    range_x := range_x
    range_y := range_y
    half_range_x := half_range_x
    half_range_y := half_range_y
    mbr := { min_x := min_x, min_y := min_y, max_x := max_x, max_y := max_y }
    dim_x := dim_x
    dim_y := dim_y }

/-- A sample area envelope, `(0,0)-(10,8)`. -/
def sampleMbr : Mbr := { min_x := 0, min_y := 0, max_x := 10, max_y := 8 }

/-- How lines 131-205 of `main.cpp` end: with one of the two exits the code
has there, or with the grid geometry computed. -/
inductive GeometryOutcome where
  /-- The call `usage (argv[0])` of line 138, taken when `get_area_mbr` fails. -/
  | usageExit : GeometryOutcome
  /-- The `perror (shpname); exit (-1)` of lines 158-162, taken when `SHPOpen` fails. -/
  | shapefileExit : GeometryOutcome
  /-- The variables of `main` after line 205. -/
  | grid (g : Grid) : GeometryOutcome
deriving DecidableEq, Repr

/-- Lines 131-205 of `main.cpp`.  `area` is the envelope `get_area_mbr` read
(`none` when it returns false), `shpOpened` tells whether `SHPOpen` returned a
handle, `x_resolution` and `y_resolution` are the angular steps `newgp` gives
for the requested metric resolution.  These are all the exits of that stretch
of code: none of them looks at the resolution. -/
def mainGeometry (area : Option Mbr) (shpOpened : Bool) (x_resolution y_resolution : ℚ) :
    GeometryOutcome :=
  match area with
  | none => GeometryOutcome.usageExit
  | some mbr =>
    if shpOpened then GeometryOutcome.grid (gridGeometry mbr x_resolution y_resolution)
    else GeometryOutcome.shapefileExit

/-! ## The quadrant worker (`maskThread.cpp`) -/

/-- One ring of the ring store: the vertices `(poly_x[k][n], poly_y[k][n])`
for `n < poly_count[k]`, in order. -/
abbrev Ring := List (ℚ × ℚ)

/-- The ring store: `poly_x`, `poly_y`, `poly_count` with `num_poly` entries. -/
abbrev RingStore := List Ring

/-- The test `inside_polygon2 (poly_x[k], poly_y[k], poly_count[k], x, y)` read
as a C condition (non-zero is true): ring, then `x`, then `y`. -/
abbrev InsideTest := Ring → ℚ → ℚ → Bool

/-- The parameters handed to a worker by `maskThread::mask` that the
classification loop of `maskThread::run` reads. -/
structure MaskArgs where
  sw_lat : ℚ
  sw_lon : ℚ
  x_res : ℚ
  y_res : ℚ
  x_dim : Int
  y_dim : Int
  start_x : Int
  start_y : Int
  width : Int
  water : Bool
deriving DecidableEq, Repr

/-- Lines 133-141 of `maskThread.cpp`: the counter `inside_count` after the
loop over all `num_poly` rings. -/
def insideCount (inside : InsideTest) (store : RingStore) (slon slat : ℚ) : Nat :=
  store.foldl (fun inside_count ring => if inside ring slon slat then inside_count + 1 else inside_count) 0

/-- Lines 146-167 of `maskThread.cpp`: the byte stored for a cell
(`NVTrue = 1` for land, `NVFalse = 0` for water). -/
def cellFlag (inside : InsideTest) (store : RingStore) (water : Bool) (slon slat : ℚ) : Nat :=
  if insideCount inside store slon slat % 2 ≠ 0 then
    (if water then 0 else 1)
  else
    (if water then 1 else 0)

/-- The values taken by the control variable of
`for (int32_t v = lo ; v < hi ; v++)`, in order. -/
def forRange (lo hi : Int) : List Int :=
  (List.range (hi - lo).toNat).map fun (n : Nat) => lo + (n : Int)

/-- The loop nest of `maskThread::run` (lines 111-168) as the sequence of
stores it performs on `block`, in program order: each entry is the flat index
`i * width + j`, an `int32_t` product and sum, and the byte assigned there. -/
def run (inside : InsideTest) (store : RingStore) (a : MaskArgs) : List (Int × Nat) :=
  let end_x := a.start_x + a.x_dim
  let end_y := a.start_y + a.y_dim
  (forRange a.start_y end_y).flatMap fun (i : Int) =>
    let slat := a.sw_lat + ((i : ℚ) + 1 / 2) * a.y_res
    (forRange a.start_x end_x).map fun (j : Int) =>
      let slon := a.sw_lon + ((j : ℚ) + 1 / 2) * a.x_res
      (wrap32 (wrap32 (i * a.width) + j), cellFlag inside store a.water slon slat)

/-- The stores of `run` with the flat index `i * width + j` taken in the
integers.  This is not the code: it is what `run` amounts to when no index
leaves the 32-bit range (`run_eq_runIdeal`), and the lemmas on the stores are
stated for it. -/
def runIdeal (inside : InsideTest) (store : RingStore) (a : MaskArgs) : List (Int × Nat) :=
  let end_x := a.start_x + a.x_dim
  let end_y := a.start_y + a.y_dim
  (forRange a.start_y end_y).flatMap fun (i : Int) =>
    let slat := a.sw_lat + ((i : ℚ) + 1 / 2) * a.y_res
    (forRange a.start_x end_x).map fun (j : Int) =>
      let slon := a.sw_lon + ((j : ℚ) + 1 / 2) * a.x_res
      (i * a.width + j, cellFlag inside store a.water slon slat)

/-- Line 171 of `maskThread.cpp`: the value
`(int32_t) (((double) (i - start_y) / (double) y_dim) * 100.0)` assigned to
`percent` at the end of the body of the latitude loop for row `i`.  The
conversions to double and the constant are exact; `fl` rounds the result of
the double division and of the double multiplication. -/
def percent (fl : ℚ → ℚ) (i start_y y_dim : Int) : Int :=
  toInt32 (fl (fl (((i - start_y : Int) : ℚ) / (y_dim : ℚ)) * 100))

/-! ## Rasterization in `main` (lines 331-356) -/

/-- The four `mask_thread[p].mask (...)` calls of `main`, lines 349-356, for
passes 0 to 3. -/
def maskCalls (g : Grid) (water : Bool) : List MaskArgs :=
  [ { sw_lat := g.mbr.min_y, sw_lon := g.mbr.min_x, x_res := g.x_resolution, y_res := g.y_resolution
      x_dim := g.half_range_x, y_dim := g.half_range_y
      start_x := 0, start_y := 0, width := g.dim_x, water := water },
    { sw_lat := g.mbr.min_y, sw_lon := g.mbr.min_x, x_res := g.x_resolution, y_res := g.y_resolution
      x_dim := g.half_range_x, y_dim := g.dim_y - g.half_range_y
      start_x := 0, start_y := g.half_range_y, width := g.dim_x, water := water },
    { sw_lat := g.mbr.min_y, sw_lon := g.mbr.min_x, x_res := g.x_resolution, y_res := g.y_resolution
      x_dim := g.dim_x - g.half_range_x, y_dim := g.half_range_y
      start_x := g.half_range_x, start_y := 0, width := g.dim_x, water := water },
    { sw_lat := g.mbr.min_y, sw_lon := g.mbr.min_x, x_res := g.x_resolution, y_res := g.y_resolution
      x_dim := g.dim_x - g.half_range_x, y_dim := g.dim_y - g.half_range_y
      start_x := g.half_range_x, start_y := g.half_range_y, width := g.dim_x, water := water } ]

/-- The rectangle of global (column, row) index pairs a worker loops over. -/
def quadrantCells (a : MaskArgs) : Finset (Int × Int) :=
  Finset.Ico a.start_x (a.start_x + a.x_dim) ×ˢ Finset.Ico a.start_y (a.start_y + a.y_dim)

/-- One store `block[index] = value`.  A store outside the allocated block
has no defined result (`none`). -/
def storeByte (block : List Nat) (w : Int × Nat) : Option (List Nat) :=
  if 0 ≤ w.1 ∧ w.1 < (block.length : Int) then some (block.set w.1.toNat w.2) else none

/-- A sequence of stores applied to `block` from left to right. -/
def applyWrites : List Nat → List (Int × Nat) → Option (List Nat)
  | block, [] => some block
  | block, w :: ws =>
    match storeByte block w with
    | none => none
    | some block1 => applyWrites block1 ws

/-- All stores of the four passes, pass 0 first. -/
def allWrites (inside : InsideTest) (store : RingStore) (g : Grid) (water : Bool) : List (Int × Nat) :=
  (maskCalls g water).flatMap (run inside store)

/-- The stores of the four passes with the flat indices taken in the integers
(see `runIdeal`). -/
def allWritesIdeal (inside : InsideTest) (store : RingStore) (g : Grid) (water : Bool) :
    List (Int × Nat) :=
  (maskCalls g water).flatMap (runIdeal inside store)

/-- The block `calloc`ed at line 331: as many zero bytes as the `int32_t`
product `dim_x * dim_y` says. -/
def zeroBlock (g : Grid) : List Nat :=
  List.replicate (wrap32 (g.dim_x * g.dim_y)).toNat 0

/-- Lines 331-364 of `main.cpp`: `block` is `calloc`ed with `dim_x * dim_y`
zero bytes, the four passes store into it, and `main` waits for all of them.
The passes are taken one after the other here, pass 0 first.  A negative
`int32_t` product is converted to a size that `calloc` cannot provide: the
program exits (lines 333-337) and there is no block (`none`); a request for
zero bytes is taken to succeed.  There is no block either when a store falls
outside the block. -/
def rasterize (inside : InsideTest) (store : RingStore) (g : Grid) (water : Bool) : Option (List Nat) :=
  if wrap32 (g.dim_x * g.dim_y) < 0 then none
  else applyWrites (zeroBlock g) (allWrites inside store g water)

/-- The byte the worker loop computes for the cell of global row `i` and
column `j` of grid `g`: `cellFlag` at the cell centre
`(min_x + (j + 0.5) * x_resolution, min_y + (i + 0.5) * y_resolution)`. -/
def cellValue (inside : InsideTest) (store : RingStore) (g : Grid) (water : Bool) (i j : Int) : Nat :=
  cellFlag inside store water (g.mbr.min_x + ((j : ℚ) + 1 / 2) * g.x_resolution)
    (g.mbr.min_y + ((i : ℚ) + 1 / 2) * g.y_resolution)

/-- The stores of concurrently running workers in the order a scheduler makes
them happen.  `traces` holds, for each worker, the stores it has still to
perform, in its program order; at each step of `schedule` the worker named
there performs its next store (a step that names a worker with nothing left,
or no worker, does nothing).  The result is the sequence of stores performed,
with what is left of every trace.  Every interleaving of the traces is the
result of a schedule that leaves all traces empty. -/
def interleave : List (List (Int × Nat)) → List Nat →
    List (Int × Nat) × List (List (Int × Nat))
  | traces, [] => ([], traces)
  | traces, k :: schedule =>
    match traces[k]? with
    | some (w :: rest) =>
      ((w :: (interleave (traces.set k rest) schedule).1),
        (interleave (traces.set k rest) schedule).2)
    | _ => interleave traces schedule

/-- A square ring of side 0.1 with its lower left corner at the origin. -/
def cornerRing : Ring := [(0, 0), (1 / 10, 0), (1 / 10, 1 / 10), (0, 1 / 10)]

/-- The grid of a 4 x 4 raster: the envelope `(0,0)-(4,4)` with steps of 1. -/
def smallGrid : Grid := gridGeometry { min_x := 0, min_y := 0, max_x := 4, max_y := 4 } 1 1

/-- The grid that the geometry computes for the envelope `(0,0)-(3,3)` with
steps of -1: dimensions -2 by -2, half ranges -1. -/
def negativeGrid : Grid := gridGeometry { min_x := 0, min_y := 0, max_x := 3, max_y := 3 } (-1) (-1)

/-- The grid of an area of 0.7 by 0.7 degrees with steps of 0.00001 degree
(about one metre): 70000 by 70000 cells. -/
def largeGrid : Grid :=
  gridGeometry { min_x := 0, min_y := 0, max_x := 7 / 10, max_y := 7 / 10 } (1 / 100000) (1 / 100000)

/-! ## The mask file (`main.cpp`, lines 412-447) -/

/-- A read `block[index]`.  A read outside the block has no defined result (`none`). -/
def readByte (block : List Nat) (index : Int) : Option Nat :=
  if 0 ≤ index then block[index.toNat]? else none

/-- The bytes read from `block` at a sequence of indices, in order. -/
def readBytes (block : List Nat) : List Int → Option (List Nat)
  | [] => some []
  | index :: rest =>
    match readByte block index, readBytes block rest with
    | some b, some bs => some (b :: bs)
    | _, _ => none

/-- The header text of lines 412-423 as character codes.  The version string
of `version.h`, the date text of `asctime` and the texts that `%.11f` and
`%.08f` give for the doubles are inputs; the three integers are printed with
`%d`. -/
def headerText (version date startLat startLon latRes lonRes : String) (dim_y dim_x resolution : Int)
    (diff : String) : List Nat :=
  (("[HEADER SIZE] = 16384\n" ++ "[VERSION] = " ++ version ++ "\n" ++
    "[CREATION DATE] = " ++ date ++
    "[START LAT] = " ++ startLat ++ "\n" ++ "[START LON] = " ++ startLon ++ "\n" ++
    "[LAT RESOLUTION] = " ++ latRes ++ "\n" ++ "[LON RESOLUTION] = " ++ lonRes ++ "\n" ++
    "[HEIGHT] = " ++ toString dim_y ++ "\n" ++ "[WIDTH] = " ++ toString dim_x ++ "\n" ++
    "[NOMINAL BIN SIZE IN METERS] = " ++ toString resolution ++ "\n" ++
    "[NORTH SOUTH LON BIN SIZE DIFFERENCE IN METERS] = " ++ diff ++ "\n" ++
    "[END OF HEADER]\n").data).map Char.toNat

/-- The header that the program writes for the 4 x 4 grid `smallGrid`, with a
sample version text and date. -/
def sampleHeader : List Nat :=
  headerText "PFM Software - shape_mask V1.00 - 02/25/14" "Fri Oct 30 04:43:00 2026\n"
    "0.00000000000" "0.00000000000" "1.00000000000" "1.00000000000" 4 4 111000 "0.00000000"

/-- The bytes of the mask file.  `header` is the text the `fprintf` calls of
lines 412-423 have written, so that `ftell` returns its length; lines 428-430
write one zero byte for every position from there up to 16384; lines 435-447
write `block[i * dim_x + j]`, the index an `int32_t` product and sum, for `i`
from 0 to `dim_y - 1` and, inside, `j` from 0 to `dim_x - 1`. -/
def maskFile (header : List Nat) (block : List Nat) (dim_x dim_y : Int) : Option (List Nat) :=
  let padding := (forRange (header.length : Int) 16384).map fun (_ : Int) => (0 : Nat)
  let indices := (forRange 0 dim_y).flatMap fun (i : Int) =>
    (forRange 0 dim_x).map fun (j : Int) => wrap32 (wrap32 (i * dim_x) + j)
  match readBytes block indices with
  | some raster => some (header ++ padding ++ raster)
  | none => none

/-! ## Reading the shapes (`main.cpp`, lines 151 and 210-321) -/

/-- The fields of an `SHPObject` that `main` reads: the vertices
`(padfX[j], padfY[j])` for `j < nVertices`, and the part start offsets
`panPartStart[k]` for `k < nParts`. -/
structure Shape where
  vertices : List (ℚ × ℚ)
  panPartStart : List Int
deriving DecidableEq, Repr

/-- The ring arrays while the shapes are read: `num_poly`, and the rings
`poly_x[k]`, `poly_y[k]` with their `poly_count[k]` vertices, one entry for
every `k` allocated so far. -/
structure PolyState where
  num_poly : Int
  poly : List Ring
deriving DecidableEq, Repr

/-- The body of the vertex loop (lines 221-308) for vertex `j` of a shape,
`v` being `(padfX[j], padfY[j])`.  Returns the new `numParts` and the new ring
arrays.  When a segment starts, `num_poly` is incremented and the arrays are
reallocated with one more, empty, entry.  The vertex is then stored in ring
`num_poly`; when that index is not an entry of the arrays the store has no
defined result (`none`). -/
def vertexStep (panPartStart : List Int) (j : Nat) (v : ℚ × ℚ) (numParts : Nat) (st : PolyState) :
    Option (Nat × PolyState) :=
  let first : Bool := decide (j = 0 ∧ 0 < panPartStart.length)
  let hit : Bool := decide (numParts < panPartStart.length ∧ panPartStart[numParts]? = some (j : Int))
  let start_segment : Bool := first || hit
  let numParts1 : Nat := if hit then numParts + 1 else numParts
  let st1 : PolyState :=
    if start_segment then { num_poly := st.num_poly + 1, poly := st.poly ++ [[]] } else st
  if 0 ≤ st1.num_poly then
    match st1.poly[st1.num_poly.toNat]? with
    | some ring =>
      some (numParts1, { num_poly := st1.num_poly, poly := st1.poly.set st1.num_poly.toNat (ring ++ [v]) })
    | none => none
  else none

/-- The vertex loop `for (j = 0, numParts = 1 ; j < shape->nVertices ; j++)`
from vertex `j` on, over the vertices still to read. -/
def readVertices (panPartStart : List Int) : List (ℚ × ℚ) → Nat → Nat → PolyState → Option PolyState
  | [], _, _, st => some st
  | v :: rest, j, numParts, st =>
    match vertexStep panPartStart j v numParts st with
    | some (numParts1, st1) => readVertices panPartStart rest (j + 1) numParts1 st1
    | none => none

/-- The body of the shape loop (lines 212-315): a shape with fewer than 2
vertices is skipped. -/
def readShape (shape : Shape) (st : PolyState) : Option PolyState :=
  if 2 ≤ shape.vertices.length then readVertices shape.panPartStart shape.vertices 0 1 st
  else some st

/-- The shape loop `for (i = 0 ; i < numShapes ; i++)` over the shapes still to read. -/
def readShapesFrom : List Shape → PolyState → Option PolyState
  | [], st => some st
  | shape :: rest, st =>
    match readShape shape st with
    | some st1 => readShapesFrom rest st1
    | none => none

/-- Lines 151 and 210-321 of `main.cpp`: `num_poly` starts at -1 with no ring
allocated, all shapes are read, then `num_poly` is incremented.  The result is
the final `num_poly` with the ring store. -/
def readShapes (shapes : List Shape) : Option (Int × RingStore) :=
  match readShapesFrom shapes { num_poly := -1, poly := [] } with
  | some st => some (st.num_poly + 1, st.poly)
  | none => none

/-- The contiguous vertex slices of the parts of a shape: part `p` runs from
its start offset up to the start offset of part `p + 1`, the last part up to
the end of the vertices. -/
def partSlices (shape : Shape) : List Ring :=
  List.zipWith (fun (a b : Nat) => (shape.vertices.drop a).take (b - a))
    (shape.panPartStart.map Int.toNat)
    ((shape.panPartStart.map Int.toNat).tail ++ [shape.vertices.length])

/-- The part start offsets of a shape begin at 0, are strictly increasing and
are below the vertex count. -/
def WellFormedParts (shape : Shape) : Prop :=
  shape.panPartStart.head? = some 0 ∧ shape.panPartStart.Pairwise (fun a b => a < b) ∧
    ∀ p ∈ shape.panPartStart, p < (shape.vertices.length : Int)

instance (shape : Shape) : Decidable (WellFormedParts shape) := by
  unfold WellFormedParts
  infer_instance

/-- Every part of a shape spans at least 2 vertices: each start offset is at
least 2 above the one before it, and at least 2 below the vertex count. -/
def PartsOfTwo (shape : Shape) : Prop :=
  shape.panPartStart.Pairwise (fun a b => a + 2 ≤ b) ∧
    ∀ p ∈ shape.panPartStart, p + 2 ≤ (shape.vertices.length : Int)

instance (shape : Shape) : Decidable (PartsOfTwo shape) := by
  unfold PartsOfTwo
  infer_instance

/-- The slices of `rest`, the vertices from index `j` on, cut at the start
offsets `starts`. -/
def pieces : List (ℚ × ℚ) → Nat → List Int → List Ring
  | rest, _, [] => [rest]
  | rest, j, r :: starts => rest.take (r.toNat - j) :: pieces (rest.drop (r.toNat - j)) r.toNat starts

/-- The ring `cur` continued by the first of the slices `ps`. -/
def glue (cur : Ring) : List Ring → List Ring
  | [] => [cur]
  | p :: ps => (cur ++ p) :: ps

/-- Three sample shapes: five vertices in two parts, a single vertex, and two
vertices in one part. -/
def sampleShapes : List Shape :=
  [ { vertices := [(0, 0), (1, 0), (2, 0), (3, 0), (4, 0)], panPartStart := [0, 2] },
    { vertices := [(9, 9)], panPartStart := [0] },
    { vertices := [(5, 5), (6, 6)], panPartStart := [0] } ]

/-! ## The point-in-ring test used for the worked scenario -/

/-- The number of edges of the implicitly closed ring (each vertex joined to
the one before it, the first to the last) that the ray from `(x, y)` toward
increasing `x` crosses. -/
def crossings (ring : Ring) (x y : ℚ) : Nat :=
  (ring.zip (ring.rotateRight 1)).countP fun e =>
    decide ((((e.1.2 ≤ y ∧ y < e.2.2) ∨ (e.2.2 ≤ y ∧ y < e.1.2)) ∧
      x < (e.2.1 - e.1.1) * (y - e.1.2) / (e.2.2 - e.1.2) + e.1.1))

/-- Modelled from the spec: `inside_polygon2` of the `nvutility` library (not
in the source tree), which the spec describes as a standard even-odd
point-in-polygon test: a ring contains the point when the number of edge
crossings of a ray from the point is odd, the ring being implicitly closed. -/
def inside_polygon2 : InsideTest := fun ring x y =>
  decide (crossings ring x y % 2 = 1)

/-- The square ring with corners (0,0), (10,0), (10,10), (0,10) (lon, lat). -/
def squareRing : Ring := [(0, 0), (10, 0), (10, 10), (0, 10)]

/-- The square ring with corners (3,3), (7,3), (7,7), (3,7), concentric with `squareRing`. -/
def innerRing : Ring := [(3, 3), (7, 3), (7, 7), (3, 7)]

/-- The area envelope of the worked scenario, (-2,-2) to (12,12). -/
def scenarioMbr : Mbr := { min_x := -2, min_y := -2, max_x := 12, max_y := 12 }

/-- The grid geometry of the worked scenario: steps of 1 degree on both axes. -/
def scenarioGrid : Grid := gridGeometry scenarioMbr 1 1

/-! ## Argument handling in `main` (lines 106-128) -/

/-- The state left by the `getopt` loop when no unknown option was met: the
`water` flag, `argv` as `getopt` has reordered it, and `optind`. -/
structure Getopt where
  water : Bool
  argv : List String
  optind : Nat
deriving DecidableEq, Repr

/-- The loop `while ((c = getopt (argc, argv, "w")) != EOF)` of lines 107-119
over the elements after `argv[0]`, with the behaviour of the C library's
`getopt` for the option string `w`: an element that starts with `-` and has
more characters is a cluster of option characters, `--` ends the options, any
other element is an operand and is moved behind the options.  `opts` and
`operands` are the elements already seen, latest first.  An option character
other than `w` makes `getopt` return `?`, the `default:` branch calls `usage`
and the program exits: the result is `none`. -/
def getoptLoop : List String → Bool → List String → List String → Option (Bool × List String × List String)
  | [], water, opts, operands => some (water, opts.reverse, operands.reverse)
  | a :: rest, water, opts, operands =>
    match a.data with
    | '-' :: c :: cs =>
      if a = "--" then some (water, (a :: opts).reverse, operands.reverse ++ rest)
      else if (c :: cs).all (fun ch => ch == 'w') then getoptLoop rest true (a :: opts) operands
      else none
    | _ => getoptLoop rest water opts (a :: operands)

/-- The `getopt` loop of `main` on a whole argument vector. -/
def getoptAll (argv : List String) : Option Getopt :=
  match argv with
  | [] => some { water := false, argv := [], optind := 1 }
  | argv0 :: rest =>
    match getoptLoop rest false [] [] with
    | none => none
    | some (water, opts, operands) =>
      some { water := water, argv := argv0 :: (opts ++ operands), optind := 1 + opts.length }

/-- What lines 106-128 of `main.cpp` do with an argument vector. -/
inductive ArgOutcome where
  /-- The call `usage (argv[0])`: the usage text is printed and the program exits with status -1. -/
  | usageExit : ArgOutcome
  /-- The test of line 124 passed and line 128 hands `argv[optind + 1]`, which
  is the terminating null pointer `argv[argc]`, to `sscanf`. -/
  | readsNullArgument (shpname : String) : ArgOutcome
  /-- Both `argv[optind]` and `argv[optind + 1]` are arguments: processing goes on. -/
  | proceeds (water : Bool) (shpname : String) (resolutionText : String) : ArgOutcome
deriving DecidableEq, Repr

/-- Lines 106-128 of `main.cpp`: the `getopt` loop, the test
`if (optind >= argc) usage (argv[0])`, then `strcpy (shpname, argv[optind])`
and `sscanf (argv[optind + 1], ...)`. -/
def parseArgs (argv : List String) : ArgOutcome :=
  match getoptAll argv with
  | none => ArgOutcome.usageExit
  | some st =>
    if st.optind ≥ argv.length then ArgOutcome.usageExit
    else
      match st.argv[st.optind]?, st.argv[st.optind + 1]? with
      | some shpname, some resolutionText => ArgOutcome.proceeds st.water shpname resolutionText
      | some shpname, none => ArgOutcome.readsNullArgument shpname
      | none, _ => ArgOutcome.usageExit

end ShapeMask

/-! ## Grid geometry: lemmas -/

namespace ShapeMask

theorem toInt32_of_nonneg {d : ℚ} (h : 0 ≤ d) : toInt32 d = ⌊d⌋ := by
  unfold toInt32
  rw [if_neg (not_lt.mpr h)]

theorem NINT_intCast (n : Int) : NINT (n : ℚ) = n := by
  unfold NINT toInt32
  by_cases hn : (n : ℚ) < 0
  · have h1 : (n : ℚ) - 1 / 2 < 0 := by linarith
    rw [if_pos hn, if_pos h1, Int.ceil_eq_iff]
    constructor <;> linarith
  · have h0 : (0 : ℚ) ≤ n := not_lt.mp hn
    have h1 : ¬ ((n : ℚ) + 1 / 2 < 0) := by linarith
    rw [if_neg hn, if_neg h1, Int.floor_eq_iff]
    constructor <;> linarith

theorem range_x_eq (mbr : Mbr) (xr yr : ℚ) :
    (gridGeometry mbr xr yr).range_x = toInt32 ((mbr.max_x - mbr.min_x) / xr) + 1 := rfl

theorem range_y_eq (mbr : Mbr) (xr yr : ℚ) :
    (gridGeometry mbr xr yr).range_y = toInt32 ((mbr.max_y - mbr.min_y) / yr) + 1 := rfl

theorem half_range_x_eq (mbr : Mbr) (xr yr : ℚ) :
    (gridGeometry mbr xr yr).half_range_x = Int.tdiv (gridGeometry mbr xr yr).range_x 2 := rfl

theorem half_range_y_eq (mbr : Mbr) (xr yr : ℚ) :
    (gridGeometry mbr xr yr).half_range_y = Int.tdiv (gridGeometry mbr xr yr).range_y 2 := rfl

theorem min_x_eq (mbr : Mbr) (xr yr : ℚ) :
    (gridGeometry mbr xr yr).mbr.min_x
      = mbr.min_x + (mbr.max_x - mbr.min_x) / 2 - ((gridGeometry mbr xr yr).half_range_x : ℚ) * xr := rfl

theorem max_x_eq (mbr : Mbr) (xr yr : ℚ) :
    (gridGeometry mbr xr yr).mbr.max_x
      = mbr.min_x + (mbr.max_x - mbr.min_x) / 2 + ((gridGeometry mbr xr yr).half_range_x : ℚ) * xr := rfl

theorem min_y_eq (mbr : Mbr) (xr yr : ℚ) :
    (gridGeometry mbr xr yr).mbr.min_y
      = mbr.min_y + (mbr.max_y - mbr.min_y) / 2 - ((gridGeometry mbr xr yr).half_range_y : ℚ) * yr := rfl

theorem max_y_eq (mbr : Mbr) (xr yr : ℚ) :
    (gridGeometry mbr xr yr).mbr.max_y
      = mbr.min_y + (mbr.max_y - mbr.min_y) / 2 + ((gridGeometry mbr xr yr).half_range_y : ℚ) * yr := rfl

/-- With a non-zero step the division of line 204 is exact: `dim_x` is twice the half range. -/
theorem dim_x_eq (mbr : Mbr) (xr yr : ℚ) (hxr : xr ≠ 0) :
    (gridGeometry mbr xr yr).dim_x = 2 * (gridGeometry mbr xr yr).half_range_x := by
  have h : (gridGeometry mbr xr yr).dim_x
      = NINT (((gridGeometry mbr xr yr).mbr.max_x - (gridGeometry mbr xr yr).mbr.min_x) / xr) := rfl
  rw [h, max_x_eq, min_x_eq]
  have e : (mbr.min_x + (mbr.max_x - mbr.min_x) / 2 + ((gridGeometry mbr xr yr).half_range_x : ℚ) * xr
      - (mbr.min_x + (mbr.max_x - mbr.min_x) / 2 - ((gridGeometry mbr xr yr).half_range_x : ℚ) * xr)) / xr
      = ((2 * (gridGeometry mbr xr yr).half_range_x : Int) : ℚ) := by
    push_cast
    field_simp
    ring
  rw [e, NINT_intCast]

theorem dim_y_eq (mbr : Mbr) (xr yr : ℚ) (hyr : yr ≠ 0) :
    (gridGeometry mbr xr yr).dim_y = 2 * (gridGeometry mbr xr yr).half_range_y := by
  have h : (gridGeometry mbr xr yr).dim_y
      = NINT (((gridGeometry mbr xr yr).mbr.max_y - (gridGeometry mbr xr yr).mbr.min_y) / yr) := rfl
  rw [h, max_y_eq, min_y_eq]
  have e : (mbr.min_y + (mbr.max_y - mbr.min_y) / 2 + ((gridGeometry mbr xr yr).half_range_y : ℚ) * yr
      - (mbr.min_y + (mbr.max_y - mbr.min_y) / 2 - ((gridGeometry mbr xr yr).half_range_y : ℚ) * yr)) / yr
      = ((2 * (gridGeometry mbr xr yr).half_range_y : Int) : ℚ) := by
    push_cast
    field_simp
    ring
  rw [e, NINT_intCast]

/-- With a zero step the quotient of line 204 is `0` in the model, and so is `dim_x`. -/
theorem dim_x_zero_step (mbr : Mbr) (yr : ℚ) : (gridGeometry mbr 0 yr).dim_x = 0 := by
  have h : (gridGeometry mbr 0 yr).dim_x
      = NINT (((gridGeometry mbr 0 yr).mbr.max_x - (gridGeometry mbr 0 yr).mbr.min_x) / 0) := rfl
  rw [h, div_zero]
  exact NINT_intCast 0

theorem dim_y_zero_step (mbr : Mbr) (xr : ℚ) : (gridGeometry mbr xr 0).dim_y = 0 := by
  have h : (gridGeometry mbr xr 0).dim_y
      = NINT (((gridGeometry mbr xr 0).mbr.max_y - (gridGeometry mbr xr 0).mbr.min_y) / 0) := rfl
  rw [h, div_zero]
  exact NINT_intCast 0

/-- For an extent `e ≥ 0` and a step `r > 0`: the truncation of line 192 is a
floor, the range is at least 1 and the C quotient `range / 2` is the floor
quotient. -/
theorem axis_range (e r : ℚ) (he : 0 ≤ e) (hr : 0 < r) :
    toInt32 (e / r) + 1 = ⌊e / r⌋ + 1 ∧ 1 ≤ toInt32 (e / r) + 1 ∧
      Int.tdiv (toInt32 (e / r) + 1) 2 = (⌊e / r⌋ + 1) / 2 ∧
      0 ≤ Int.tdiv (toInt32 (e / r) + 1) 2 := by
  have hq : 0 ≤ e / r := div_nonneg he hr.le
  have hf : 0 ≤ ⌊e / r⌋ := Int.floor_nonneg.mpr hq
  rw [toInt32_of_nonneg hq]
  have ht : Int.tdiv (⌊e / r⌋ + 1) 2 = (⌊e / r⌋ + 1) / 2 :=
    Int.tdiv_eq_ediv (by omega) (by decide)
  refine ⟨rfl, by omega, ht, ?_⟩
  rw [ht]
  omega

end ShapeMask

/-! ## Grid geometry: centering and dimensions -/

namespace ShapeMask

/-- C7 (grid centering).  For an envelope with `min ≤ max` on each axis and
positive angular steps, the recentred envelope computed by `main` is
`[centre - half_range * res, centre + half_range * res]` around the centre of
the original envelope, it contains that centre, and its midpoint is that
centre exactly, hence within half a cell of it, on each axis. -/
theorem grid_centering (mbr : Mbr) (xr yr : ℚ)
    (hx : mbr.min_x ≤ mbr.max_x) (hy : mbr.min_y ≤ mbr.max_y) (hxr : 0 < xr) (hyr : 0 < yr) :
    ((gridGeometry mbr xr yr).mbr.min_x
        = (mbr.min_x + mbr.max_x) / 2 - ((gridGeometry mbr xr yr).half_range_x : ℚ) * xr ∧
      (gridGeometry mbr xr yr).mbr.max_x
        = (mbr.min_x + mbr.max_x) / 2 + ((gridGeometry mbr xr yr).half_range_x : ℚ) * xr ∧
      (gridGeometry mbr xr yr).mbr.min_x ≤ (mbr.min_x + mbr.max_x) / 2 ∧
      (mbr.min_x + mbr.max_x) / 2 ≤ (gridGeometry mbr xr yr).mbr.max_x ∧
      ((gridGeometry mbr xr yr).mbr.min_x + (gridGeometry mbr xr yr).mbr.max_x) / 2
        = (mbr.min_x + mbr.max_x) / 2 ∧
      |((gridGeometry mbr xr yr).mbr.min_x + (gridGeometry mbr xr yr).mbr.max_x) / 2
        - (mbr.min_x + mbr.max_x) / 2| ≤ xr / 2) ∧
    ((gridGeometry mbr xr yr).mbr.min_y
        = (mbr.min_y + mbr.max_y) / 2 - ((gridGeometry mbr xr yr).half_range_y : ℚ) * yr ∧
      (gridGeometry mbr xr yr).mbr.max_y
        = (mbr.min_y + mbr.max_y) / 2 + ((gridGeometry mbr xr yr).half_range_y : ℚ) * yr ∧
      (gridGeometry mbr xr yr).mbr.min_y ≤ (mbr.min_y + mbr.max_y) / 2 ∧
      (mbr.min_y + mbr.max_y) / 2 ≤ (gridGeometry mbr xr yr).mbr.max_y ∧
      ((gridGeometry mbr xr yr).mbr.min_y + (gridGeometry mbr xr yr).mbr.max_y) / 2
        = (mbr.min_y + mbr.max_y) / 2 ∧
      |((gridGeometry mbr xr yr).mbr.min_y + (gridGeometry mbr xr yr).mbr.max_y) / 2
        - (mbr.min_y + mbr.max_y) / 2| ≤ yr / 2) := by
  have hhx : (0 : ℚ) ≤ ((gridGeometry mbr xr yr).half_range_x : ℚ) := by
    rw [half_range_x_eq, range_x_eq]
    exact_mod_cast (axis_range _ xr (sub_nonneg.mpr hx) hxr).2.2.2
  have hhy : (0 : ℚ) ≤ ((gridGeometry mbr xr yr).half_range_y : ℚ) := by
    rw [half_range_y_eq, range_y_eq]
    exact_mod_cast (axis_range _ yr (sub_nonneg.mpr hy) hyr).2.2.2
  have px : 0 ≤ ((gridGeometry mbr xr yr).half_range_x : ℚ) * xr := mul_nonneg hhx hxr.le
  have py : 0 ≤ ((gridGeometry mbr xr yr).half_range_y : ℚ) * yr := mul_nonneg hhy hyr.le
  have mx : ((gridGeometry mbr xr yr).mbr.min_x + (gridGeometry mbr xr yr).mbr.max_x) / 2
      = (mbr.min_x + mbr.max_x) / 2 := by
    rw [min_x_eq, max_x_eq]; ring
  have my : ((gridGeometry mbr xr yr).mbr.min_y + (gridGeometry mbr xr yr).mbr.max_y) / 2
      = (mbr.min_y + mbr.max_y) / 2 := by
    rw [min_y_eq, max_y_eq]; ring
  refine ⟨⟨?_, ?_, ?_, ?_, mx, ?_⟩, ⟨?_, ?_, ?_, ?_, my, ?_⟩⟩
  · rw [min_x_eq]; ring
  · rw [max_x_eq]; ring
  · rw [min_x_eq]; linarith
  · rw [max_x_eq]; linarith
  · rw [mx, sub_self, abs_zero]; linarith
  · rw [min_y_eq]; ring
  · rw [max_y_eq]; ring
  · rw [min_y_eq]; linarith
  · rw [max_y_eq]; linarith
  · rw [my, sub_self, abs_zero]; linarith

/-- C8 (grid dimensions).  For an envelope with `min ≤ max` on each axis and
positive angular steps: the range computed by the truncating cast is
`floor ((max - min) / res) + 1`, the half range is `range / 2`, the dimension
`NINT ((max' - min') / res)` over the recentred envelope is `2 * half_range`,
`origin + dim * res` is the recentred maximum, and the dimension is `range`
when the range is even and `range - 1` when it is odd. -/
theorem grid_dimensions (mbr : Mbr) (xr yr : ℚ)
    (hx : mbr.min_x ≤ mbr.max_x) (hy : mbr.min_y ≤ mbr.max_y) (hxr : 0 < xr) (hyr : 0 < yr) :
    ((gridGeometry mbr xr yr).range_x = ⌊(mbr.max_x - mbr.min_x) / xr⌋ + 1 ∧
      (gridGeometry mbr xr yr).half_range_x = (gridGeometry mbr xr yr).range_x / 2 ∧
      (gridGeometry mbr xr yr).dim_x
        = NINT (((gridGeometry mbr xr yr).mbr.max_x - (gridGeometry mbr xr yr).mbr.min_x) / xr) ∧
      (gridGeometry mbr xr yr).dim_x = 2 * (gridGeometry mbr xr yr).half_range_x ∧
      (gridGeometry mbr xr yr).mbr.min_x + ((gridGeometry mbr xr yr).dim_x : ℚ) * xr
        = (gridGeometry mbr xr yr).mbr.max_x ∧
      (Even (gridGeometry mbr xr yr).range_x →
        (gridGeometry mbr xr yr).dim_x = (gridGeometry mbr xr yr).range_x) ∧
      (Odd (gridGeometry mbr xr yr).range_x →
        (gridGeometry mbr xr yr).dim_x = (gridGeometry mbr xr yr).range_x - 1)) ∧
    ((gridGeometry mbr xr yr).range_y = ⌊(mbr.max_y - mbr.min_y) / yr⌋ + 1 ∧
      (gridGeometry mbr xr yr).half_range_y = (gridGeometry mbr xr yr).range_y / 2 ∧
      (gridGeometry mbr xr yr).dim_y
        = NINT (((gridGeometry mbr xr yr).mbr.max_y - (gridGeometry mbr xr yr).mbr.min_y) / yr) ∧
      (gridGeometry mbr xr yr).dim_y = 2 * (gridGeometry mbr xr yr).half_range_y ∧
      (gridGeometry mbr xr yr).mbr.min_y + ((gridGeometry mbr xr yr).dim_y : ℚ) * yr
        = (gridGeometry mbr xr yr).mbr.max_y ∧
      (Even (gridGeometry mbr xr yr).range_y →
        (gridGeometry mbr xr yr).dim_y = (gridGeometry mbr xr yr).range_y) ∧
      (Odd (gridGeometry mbr xr yr).range_y →
        (gridGeometry mbr xr yr).dim_y = (gridGeometry mbr xr yr).range_y - 1)) := by
  obtain ⟨ax1, -, ax3, -⟩ := axis_range _ xr (sub_nonneg.mpr hx) hxr
  obtain ⟨ay1, -, ay3, -⟩ := axis_range _ yr (sub_nonneg.mpr hy) hyr
  have rx : (gridGeometry mbr xr yr).range_x = ⌊(mbr.max_x - mbr.min_x) / xr⌋ + 1 := by
    rw [range_x_eq]; exact ax1
  have ry : (gridGeometry mbr xr yr).range_y = ⌊(mbr.max_y - mbr.min_y) / yr⌋ + 1 := by
    rw [range_y_eq]; exact ay1
  have hhx : (gridGeometry mbr xr yr).half_range_x = (gridGeometry mbr xr yr).range_x / 2 := by
    rw [half_range_x_eq, range_x_eq, ax3, ax1]
  have hhy : (gridGeometry mbr xr yr).half_range_y = (gridGeometry mbr xr yr).range_y / 2 := by
    rw [half_range_y_eq, range_y_eq, ay3, ay1]
  have dx := dim_x_eq mbr xr yr hxr.ne'
  have dy := dim_y_eq mbr xr yr hyr.ne'
  refine ⟨⟨rx, hhx, rfl, dx, ?_, ?_, ?_⟩, ⟨ry, hhy, rfl, dy, ?_, ?_, ?_⟩⟩
  · rw [dx, min_x_eq, max_x_eq]; push_cast; ring
  · intro hev
    obtain ⟨k, hk⟩ := hev
    rw [dx, hhx]; omega
  · intro hod
    obtain ⟨k, hk⟩ := hod
    rw [dx, hhx]; omega
  · rw [dy, min_y_eq, max_y_eq]; push_cast; ring
  · intro hev
    obtain ⟨k, hk⟩ := hev
    rw [dy, hhy]; omega
  · intro hod
    obtain ⟨k, hk⟩ := hod
    rw [dy, hhy]; omega

end ShapeMask

namespace ShapeMask

/-- Witness for C7: the envelope `(0,0)-(10,8)` with steps 3 and 2. -/
theorem grid_centering_witness :
    (sampleMbr.min_x ≤ sampleMbr.max_x ∧ sampleMbr.min_y ≤ sampleMbr.max_y ∧ (0 : ℚ) < 3 ∧ (0 : ℚ) < 2) ∧
    (((gridGeometry sampleMbr 3 2).mbr.min_x
        = (sampleMbr.min_x + sampleMbr.max_x) / 2 - ((gridGeometry sampleMbr 3 2).half_range_x : ℚ) * 3 ∧
      (gridGeometry sampleMbr 3 2).mbr.max_x
        = (sampleMbr.min_x + sampleMbr.max_x) / 2 + ((gridGeometry sampleMbr 3 2).half_range_x : ℚ) * 3 ∧
      (gridGeometry sampleMbr 3 2).mbr.min_x ≤ (sampleMbr.min_x + sampleMbr.max_x) / 2 ∧
      (sampleMbr.min_x + sampleMbr.max_x) / 2 ≤ (gridGeometry sampleMbr 3 2).mbr.max_x ∧
      ((gridGeometry sampleMbr 3 2).mbr.min_x + (gridGeometry sampleMbr 3 2).mbr.max_x) / 2
        = (sampleMbr.min_x + sampleMbr.max_x) / 2 ∧
      |((gridGeometry sampleMbr 3 2).mbr.min_x + (gridGeometry sampleMbr 3 2).mbr.max_x) / 2
        - (sampleMbr.min_x + sampleMbr.max_x) / 2| ≤ 3 / 2) ∧
    ((gridGeometry sampleMbr 3 2).mbr.min_y
        = (sampleMbr.min_y + sampleMbr.max_y) / 2 - ((gridGeometry sampleMbr 3 2).half_range_y : ℚ) * 2 ∧
      (gridGeometry sampleMbr 3 2).mbr.max_y
        = (sampleMbr.min_y + sampleMbr.max_y) / 2 + ((gridGeometry sampleMbr 3 2).half_range_y : ℚ) * 2 ∧
      (gridGeometry sampleMbr 3 2).mbr.min_y ≤ (sampleMbr.min_y + sampleMbr.max_y) / 2 ∧
      (sampleMbr.min_y + sampleMbr.max_y) / 2 ≤ (gridGeometry sampleMbr 3 2).mbr.max_y ∧
      ((gridGeometry sampleMbr 3 2).mbr.min_y + (gridGeometry sampleMbr 3 2).mbr.max_y) / 2
        = (sampleMbr.min_y + sampleMbr.max_y) / 2 ∧
      |((gridGeometry sampleMbr 3 2).mbr.min_y + (gridGeometry sampleMbr 3 2).mbr.max_y) / 2
        - (sampleMbr.min_y + sampleMbr.max_y) / 2| ≤ 2 / 2)) :=
  ⟨⟨by decide!, by decide!, by norm_num, by norm_num⟩,
    grid_centering sampleMbr 3 2 (by decide!) (by decide!) (by norm_num) (by norm_num)⟩

/-- Witness for C8: the envelope `(0,0)-(10,8)` with steps 3 and 2 (ranges 4 and 5). -/
theorem grid_dimensions_witness :
    (sampleMbr.min_x ≤ sampleMbr.max_x ∧ sampleMbr.min_y ≤ sampleMbr.max_y ∧ (0 : ℚ) < 3 ∧ (0 : ℚ) < 2) ∧
    (((gridGeometry sampleMbr 3 2).range_x = ⌊(sampleMbr.max_x - sampleMbr.min_x) / 3⌋ + 1 ∧
      (gridGeometry sampleMbr 3 2).half_range_x = (gridGeometry sampleMbr 3 2).range_x / 2 ∧
      (gridGeometry sampleMbr 3 2).dim_x
        = NINT (((gridGeometry sampleMbr 3 2).mbr.max_x - (gridGeometry sampleMbr 3 2).mbr.min_x) / 3) ∧
      (gridGeometry sampleMbr 3 2).dim_x = 2 * (gridGeometry sampleMbr 3 2).half_range_x ∧
      (gridGeometry sampleMbr 3 2).mbr.min_x + ((gridGeometry sampleMbr 3 2).dim_x : ℚ) * 3
        = (gridGeometry sampleMbr 3 2).mbr.max_x ∧
      (Even (gridGeometry sampleMbr 3 2).range_x →
        (gridGeometry sampleMbr 3 2).dim_x = (gridGeometry sampleMbr 3 2).range_x) ∧
      (Odd (gridGeometry sampleMbr 3 2).range_x →
        (gridGeometry sampleMbr 3 2).dim_x = (gridGeometry sampleMbr 3 2).range_x - 1)) ∧
    ((gridGeometry sampleMbr 3 2).range_y = ⌊(sampleMbr.max_y - sampleMbr.min_y) / 2⌋ + 1 ∧
      (gridGeometry sampleMbr 3 2).half_range_y = (gridGeometry sampleMbr 3 2).range_y / 2 ∧
      (gridGeometry sampleMbr 3 2).dim_y
        = NINT (((gridGeometry sampleMbr 3 2).mbr.max_y - (gridGeometry sampleMbr 3 2).mbr.min_y) / 2) ∧
      (gridGeometry sampleMbr 3 2).dim_y = 2 * (gridGeometry sampleMbr 3 2).half_range_y ∧
      (gridGeometry sampleMbr 3 2).mbr.min_y + ((gridGeometry sampleMbr 3 2).dim_y : ℚ) * 2
        = (gridGeometry sampleMbr 3 2).mbr.max_y ∧
      (Even (gridGeometry sampleMbr 3 2).range_y →
        (gridGeometry sampleMbr 3 2).dim_y = (gridGeometry sampleMbr 3 2).range_y) ∧
      (Odd (gridGeometry sampleMbr 3 2).range_y →
        (gridGeometry sampleMbr 3 2).dim_y = (gridGeometry sampleMbr 3 2).range_y - 1))) :=
  ⟨⟨by decide!, by decide!, by norm_num, by norm_num⟩,
    grid_dimensions sampleMbr 3 2 (by decide!) (by decide!) (by norm_num) (by norm_num)⟩

/-- For an extent `e ≥ 0` and a step `r < 0` the range is at most 1 and the
half range is at most 0. -/
theorem axis_range_negative (e r : ℚ) (he : 0 ≤ e) (hr : r < 0) :
    Int.tdiv (toInt32 (e / r) + 1) 2 ≤ 0 := by
  have hq : e / r ≤ 0 := div_nonpos_of_nonneg_of_nonpos he hr.le
  have ht : toInt32 (e / r) ≤ 0 := by
    unfold toInt32
    by_cases h : e / r < 0
    · rw [if_pos h, Int.ceil_le]
      exact_mod_cast hq
    · rw [if_neg h]
      exact Int.floor_nonpos hq
  rcases lt_or_eq_of_le ht with h | h
  · have hn : 0 ≤ Int.tdiv (-(toInt32 (e / r) + 1)) 2 := Int.tdiv_nonneg (by omega) (by decide)
    rw [Int.neg_tdiv] at hn
    omega
  · rw [h]
    decide

/-- C9 (counterexample).  The angular steps are `-1` on both axes, the area
file gives the envelope `(0,0)-(10,10)` and the shapefile opens: lines 131-205
end with a grid, of ranges `-9`, half ranges `-4` and dimensions `-8`, and not
with an error exit. -/
theorem resolution_check_counterexample :
    ((-1 : ℚ) ≤ 0) ∧
    mainGeometry (some { min_x := 0, min_y := 0, max_x := 10, max_y := 10 }) true (-1) (-1)
      = GeometryOutcome.grid
          { center_x := 5, center_y := 5, x_resolution := -1, y_resolution := -1
            range_x := -9, range_y := -9, half_range_x := -4, half_range_y := -4
            mbr := { min_x := 1, min_y := 1, max_x := 9, max_y := 9 }
            dim_x := -8, dim_y := -8 } ∧
    mainGeometry (some { min_x := 0, min_y := 0, max_x := 10, max_y := 10 }) true (-1) (-1)
      ≠ GeometryOutcome.usageExit ∧
    mainGeometry (some { min_x := 0, min_y := 0, max_x := 10, max_y := 10 }) true (-1) (-1)
      ≠ GeometryOutcome.shapefileExit := by
  decide!

/-- C9 (amended).  When the angular steps are negative, the area envelope has
`min ≤ max` and the shapefile opens, the code does not stop with an error: it
runs the range and dimension arithmetic and ends with the grid, whose
dimension on each axis is `2 * half_range` and is at most 0. -/
theorem negative_step_no_error (mbr : Mbr) (xr yr : ℚ)
    (hx : mbr.min_x ≤ mbr.max_x) (hy : mbr.min_y ≤ mbr.max_y) (hxr : xr < 0) (hyr : yr < 0) :
    mainGeometry (some mbr) true xr yr = GeometryOutcome.grid (gridGeometry mbr xr yr) ∧
      (gridGeometry mbr xr yr).dim_x = 2 * (gridGeometry mbr xr yr).half_range_x ∧
      (gridGeometry mbr xr yr).dim_x ≤ 0 ∧
      (gridGeometry mbr xr yr).dim_y = 2 * (gridGeometry mbr xr yr).half_range_y ∧
      (gridGeometry mbr xr yr).dim_y ≤ 0 := by
  have dx := dim_x_eq mbr xr yr hxr.ne
  have dy := dim_y_eq mbr xr yr hyr.ne
  have ax : (gridGeometry mbr xr yr).half_range_x ≤ 0 := by
    rw [half_range_x_eq, range_x_eq]
    exact axis_range_negative _ xr (sub_nonneg.mpr hx) hxr
  have ay : (gridGeometry mbr xr yr).half_range_y ≤ 0 := by
    rw [half_range_y_eq, range_y_eq]
    exact axis_range_negative _ yr (sub_nonneg.mpr hy) hyr
  exact ⟨rfl, dx, by omega, dy, by omega⟩

/-- Witness for C9 (amended): the envelope `(0,0)-(10,8)` with steps `-3` and `-2`. -/
theorem negative_step_no_error_witness :
    (sampleMbr.min_x ≤ sampleMbr.max_x ∧ sampleMbr.min_y ≤ sampleMbr.max_y ∧
      (-3 : ℚ) < 0 ∧ (-2 : ℚ) < 0) ∧
    (mainGeometry (some sampleMbr) true (-3) (-2)
        = GeometryOutcome.grid (gridGeometry sampleMbr (-3) (-2)) ∧
      (gridGeometry sampleMbr (-3) (-2)).dim_x = 2 * (gridGeometry sampleMbr (-3) (-2)).half_range_x ∧
      (gridGeometry sampleMbr (-3) (-2)).dim_x ≤ 0 ∧
      (gridGeometry sampleMbr (-3) (-2)).dim_y = 2 * (gridGeometry sampleMbr (-3) (-2)).half_range_y ∧
      (gridGeometry sampleMbr (-3) (-2)).dim_y ≤ 0) :=
  ⟨⟨by decide!, by decide!, by norm_num, by norm_num⟩,
    negative_step_no_error sampleMbr (-3) (-2) (by decide!) (by decide!) (by norm_num) (by norm_num)⟩

/-- C10 (evaluation at the failing input).  With a shapefile path and no
resolution argument the test of line 124 does not call `usage`: the code goes
on to line 128 and reads `argv[optind + 1]`, the null pointer that ends `argv`. -/
theorem parseArgs_missing_resolution :
    parseArgs ["shape_mask", "fred.shp"] = ArgOutcome.readsNullArgument "fred.shp" := by
  decide

end ShapeMask

/-! ## The worker loop: which stores it performs -/

namespace ShapeMask

theorem mem_forRange {lo hi x : Int} : x ∈ forRange lo hi ↔ lo ≤ x ∧ x < hi := by
  unfold forRange
  simp only [List.mem_map, List.mem_range]
  constructor
  · rintro ⟨n, hn, rfl⟩
    omega
  · rintro ⟨h1, h2⟩
    exact ⟨(x - lo).toNat, by omega, by omega⟩

theorem nodup_forRange (lo hi : Int) : (forRange lo hi).Nodup := by
  unfold forRange
  refine (List.nodup_range _).map ?_
  intro a b h
  have h2 : lo + (a : Int) = lo + (b : Int) := h
  omega

theorem mem_runIdeal {inside : InsideTest} {store : RingStore} {a : MaskArgs} {w : Int × Nat} :
    w ∈ runIdeal inside store a ↔
      ∃ i j : Int, (a.start_y ≤ i ∧ i < a.start_y + a.y_dim) ∧
        (a.start_x ≤ j ∧ j < a.start_x + a.x_dim) ∧
        w = (i * a.width + j,
          cellFlag inside store a.water (a.sw_lon + ((j : ℚ) + 1 / 2) * a.x_res)
            (a.sw_lat + ((i : ℚ) + 1 / 2) * a.y_res)) := by
  unfold runIdeal
  simp only [List.mem_flatMap, List.mem_map, mem_forRange]
  constructor
  · rintro ⟨i, hi, j, hj, rfl⟩
    exact ⟨i, j, hi, hj, rfl⟩
  · rintro ⟨i, j, hi, hj, rfl⟩
    exact ⟨i, hi, j, hj, rfl⟩

/-- Row-major indexing is injective on columns `0 ≤ j < d`. -/
theorem flat_index_inj {d i j i2 j2 : Int} (hj : 0 ≤ j) (hjd : j < d) (hk : 0 ≤ j2) (hkd : j2 < d)
    (h : i * d + j = i2 * d + j2) : i = i2 ∧ j = j2 := by
  have hi : i = i2 := by
    by_contra hne
    rcases lt_or_gt_of_ne hne with h1 | h1
    · have : (i + 1) * d ≤ i2 * d := Int.mul_le_mul_of_nonneg_right (by omega) (by omega)
      have e : (i + 1) * d = i * d + d := by ring
      omega
    · have : (i2 + 1) * d ≤ i * d := Int.mul_le_mul_of_nonneg_right (by omega) (by omega)
      have e : (i2 + 1) * d = i2 * d + d := by ring
      omega
  subst hi
  exact ⟨rfl, by omega⟩

/-- A cell of a `dx` by `dy` grid has its flat index inside the block. -/
theorem flat_index_bounds {dx dy i j : Int} (hi : 0 ≤ i) (hid : i < dy) (hj : 0 ≤ j) (hjd : j < dx) :
    0 ≤ i * dx + j ∧ i * dx + j < dx * dy := by
  have h1 : 0 ≤ i * dx := Int.mul_nonneg hi (by omega)
  have h2 : (i + 1) * dx ≤ dy * dx := Int.mul_le_mul_of_nonneg_right (by omega) (by omega)
  have e1 : (i + 1) * dx = i * dx + dx := by ring
  have e2 : dy * dx = dx * dy := by ring
  omega

/-- The stores of the four passes with integer indices, when the split points
lie inside the grid: one store per cell of the grid, at the cell's row-major
index, of the cell's value. -/
theorem mem_allWritesIdeal {inside : InsideTest} {store : RingStore} {g : Grid} {water : Bool}
    (hx0 : 0 ≤ g.half_range_x) (hx1 : g.half_range_x ≤ g.dim_x)
    (hy0 : 0 ≤ g.half_range_y) (hy1 : g.half_range_y ≤ g.dim_y) {w : Int × Nat} :
    w ∈ allWritesIdeal inside store g water ↔
      ∃ i j : Int, (0 ≤ i ∧ i < g.dim_y) ∧ (0 ≤ j ∧ j < g.dim_x) ∧
        w = (i * g.dim_x + j, cellValue inside store g water i j) := by
  unfold allWritesIdeal maskCalls cellValue
  simp only [List.flatMap_cons, List.flatMap_nil, List.mem_append, mem_runIdeal, List.append_nil]
  constructor
  · rintro (⟨i, j, hi, hj, rfl⟩ | ⟨i, j, hi, hj, rfl⟩ | ⟨i, j, hi, hj, rfl⟩ | ⟨i, j, hi, hj, rfl⟩) <;>
      exact ⟨i, j, by omega, by omega, rfl⟩
  · rintro ⟨i, j, hi, hj, rfl⟩
    by_cases ci : i < g.half_range_y <;> by_cases cj : j < g.half_range_x
    · exact Or.inl ⟨i, j, by omega, by omega, rfl⟩
    · exact Or.inr (Or.inr (Or.inl ⟨i, j, by omega, by omega, rfl⟩))
    · exact Or.inr (Or.inl ⟨i, j, by omega, by omega, rfl⟩)
    · exact Or.inr (Or.inr (Or.inr ⟨i, j, by omega, by omega, rfl⟩))

/-! ### The 32-bit indices -/

/-- A value inside the range of `int32_t` is not changed by the reduction. -/
theorem wrap32_of_bounds {z : Int} (h0 : -2147483648 ≤ z) (h1 : z < 2147483648) : wrap32 z = z := by
  unfold wrap32
  omega

/-- The reduction always gives a value of the range of `int32_t`. -/
theorem wrap32_range (z : Int) : -2147483648 ≤ wrap32 z ∧ wrap32 z < 2147483648 := by
  unfold wrap32
  omega

theorem flatMap_congr_mem {α β : Type} {l : List α} {f g : α → List β}
    (h : ∀ x ∈ l, f x = g x) : l.flatMap f = l.flatMap g := by
  induction l with
  | nil => rfl
  | cons x xs ih =>
    rw [List.flatMap_cons, List.flatMap_cons, h x (List.mem_cons_self _ _),
      ih (fun y hy => h y (List.mem_cons_of_mem _ hy))]

/-- The stores of the worker loop, with their 32-bit indices. -/
theorem mem_run {inside : InsideTest} {store : RingStore} {a : MaskArgs} {w : Int × Nat} :
    w ∈ run inside store a ↔
      ∃ i j : Int, (a.start_y ≤ i ∧ i < a.start_y + a.y_dim) ∧
        (a.start_x ≤ j ∧ j < a.start_x + a.x_dim) ∧
        w = (wrap32 (wrap32 (i * a.width) + j),
          cellFlag inside store a.water (a.sw_lon + ((j : ℚ) + 1 / 2) * a.x_res)
            (a.sw_lat + ((i : ℚ) + 1 / 2) * a.y_res)) := by
  unfold run
  simp only [List.mem_flatMap, List.mem_map, mem_forRange]
  constructor
  · rintro ⟨i, hi, j, hj, rfl⟩
    exact ⟨i, j, hi, hj, rfl⟩
  · rintro ⟨i, j, hi, hj, rfl⟩
    exact ⟨i, hi, j, hj, rfl⟩

/-- A worker whose rectangle lies in the rows from 0 and in the columns
`[0, width)`, and whose last row ends below index `2^31`, computes every flat
index without overflow. -/
theorem run_eq_runIdeal (inside : InsideTest) (store : RingStore) (a : MaskArgs)
    (hy : 0 ≤ a.start_y) (hx : 0 ≤ a.start_x) (hw : a.start_x + a.x_dim ≤ a.width)
    (hsize : (a.start_y + a.y_dim) * a.width ≤ 2147483648) :
    run inside store a = runIdeal inside store a := by
  unfold run runIdeal
  refine flatMap_congr_mem ?_
  intro i hi
  refine List.map_congr_left ?_
  intro j hj
  rw [mem_forRange] at hi hj
  have hwd : 0 ≤ a.width := by omega
  have h1 : 0 ≤ i * a.width := Int.mul_nonneg (by omega) hwd
  have h2 : (i + 1) * a.width ≤ (a.start_y + a.y_dim) * a.width :=
    Int.mul_le_mul_of_nonneg_right (by omega) hwd
  have e1 : (i + 1) * a.width = i * a.width + a.width := by ring
  have w1 : wrap32 (i * a.width) = i * a.width := wrap32_of_bounds (by omega) (by omega)
  have w2 : wrap32 (i * a.width + j) = i * a.width + j := wrap32_of_bounds (by omega) (by omega)
  rw [w1, w2]

/-- Every worker that `main` starts computes its flat indices without
overflow, when the split points lie inside the grid and the grid has fewer
than `2^31` cells. -/
theorem run_eq_of_mem_maskCalls (inside : InsideTest) (store : RingStore) (g : Grid) (water : Bool)
    (hx0 : 0 ≤ g.half_range_x) (hx1 : g.half_range_x ≤ g.dim_x)
    (hy0 : 0 ≤ g.half_range_y) (hy1 : g.half_range_y ≤ g.dim_y)
    (hsize : g.dim_x * g.dim_y < 2147483648) (a : MaskArgs) (ha : a ∈ maskCalls g water) :
    run inside store a = runIdeal inside store a := by
  have hdx : 0 ≤ g.dim_x := by omega
  have k1 : g.half_range_y * g.dim_x ≤ g.dim_y * g.dim_x :=
    Int.mul_le_mul_of_nonneg_right hy1 hdx
  have k2 : g.dim_y * g.dim_x = g.dim_x * g.dim_y := Int.mul_comm _ _
  unfold maskCalls at ha
  simp only [List.mem_cons, List.mem_singleton, List.not_mem_nil, or_false] at ha
  rcases ha with rfl | rfl | rfl | rfl
  · exact run_eq_runIdeal inside store _ (le_refl _) (le_refl _)
      (by simp only; omega) (by simp only [Int.zero_add]; omega)
  · refine run_eq_runIdeal inside store _ hy0 (le_refl _) (by simp only; omega) ?_
    have e : g.half_range_y + (g.dim_y - g.half_range_y) = g.dim_y := by omega
    simp only
    rw [e]
    omega
  · exact run_eq_runIdeal inside store _ (le_refl _) hx0
      (by simp only; omega) (by simp only [Int.zero_add]; omega)
  · refine run_eq_runIdeal inside store _ hy0 hx0 (by simp only; omega) ?_
    have e : g.half_range_y + (g.dim_y - g.half_range_y) = g.dim_y := by omega
    simp only
    rw [e]
    omega

theorem allWrites_eq_ideal (inside : InsideTest) (store : RingStore) (g : Grid) (water : Bool)
    (hx0 : 0 ≤ g.half_range_x) (hx1 : g.half_range_x ≤ g.dim_x)
    (hy0 : 0 ≤ g.half_range_y) (hy1 : g.half_range_y ≤ g.dim_y)
    (hsize : g.dim_x * g.dim_y < 2147483648) :
    allWrites inside store g water = allWritesIdeal inside store g water := by
  unfold allWrites allWritesIdeal
  exact flatMap_congr_mem
    (run_eq_of_mem_maskCalls inside store g water hx0 hx1 hy0 hy1 hsize)

/-- The stores of the four passes, when the split points lie inside the grid
and the grid has fewer than `2^31` cells: one store per cell of the grid, at
the cell's row-major index, of the cell's value. -/
theorem mem_allWrites {inside : InsideTest} {store : RingStore} {g : Grid} {water : Bool}
    (hx0 : 0 ≤ g.half_range_x) (hx1 : g.half_range_x ≤ g.dim_x)
    (hy0 : 0 ≤ g.half_range_y) (hy1 : g.half_range_y ≤ g.dim_y)
    (hsize : g.dim_x * g.dim_y < 2147483648) {w : Int × Nat} :
    w ∈ allWrites inside store g water ↔
      ∃ i j : Int, (0 ≤ i ∧ i < g.dim_y) ∧ (0 ≤ j ∧ j < g.dim_x) ∧
        w = (i * g.dim_x + j, cellValue inside store g water i j) := by
  rw [allWrites_eq_ideal inside store g water hx0 hx1 hy0 hy1 hsize]
  exact mem_allWritesIdeal hx0 hx1 hy0 hy1

/-- The block: `rasterize` with the `int32_t` size and indices in range. -/
theorem rasterize_eq (inside : InsideTest) (store : RingStore) (g : Grid) (water : Bool)
    (h0 : 0 ≤ g.dim_x * g.dim_y) (hsize : g.dim_x * g.dim_y < 2147483648) :
    rasterize inside store g water =
      applyWrites (List.replicate (g.dim_x * g.dim_y).toNat 0) (allWrites inside store g water) := by
  unfold rasterize zeroBlock
  rw [wrap32_of_bounds (by omega) hsize, if_neg (by omega)]

end ShapeMask
/-! ## Stores applied to the block -/

namespace ShapeMask

/-- When every store of `ws` falls inside `block`, applying them succeeds,
keeps the length, and leaves at index `n` the value `v` whenever every store
to `n` writes `v` and either some store hits `n` or `v` was there before. -/
theorem applyWrites_spec : ∀ (ws : List (Int × Nat)) (block : List Nat),
    (∀ w ∈ ws, 0 ≤ w.1 ∧ w.1 < (block.length : Int)) →
    ∃ b, applyWrites block ws = some b ∧ b.length = block.length ∧
      ∀ (n : Nat) (v : Nat), n < block.length → (∀ w ∈ ws, w.1 = (n : Int) → w.2 = v) →
        ((∃ w ∈ ws, w.1 = (n : Int)) ∨ block[n]? = some v) → b[n]? = some v
  | [], block, _ => by
    refine ⟨block, rfl, rfl, ?_⟩
    intro n v _ _ h
    rcases h with ⟨w, hw, _⟩ | h
    · exact absurd hw (List.not_mem_nil w)
    · exact h
  | w :: ws, block, hb => by
    have hw := hb w (List.mem_cons_self _ _)
    have hstore : storeByte block w = some (block.set w.1.toNat w.2) := by
      unfold storeByte
      rw [if_pos hw]
    have hrest : ∀ w2 ∈ ws, 0 ≤ w2.1 ∧ w2.1 < ((block.set w.1.toNat w.2).length : Int) := by
      intro w2 hw2
      rw [List.length_set]
      exact hb w2 (List.mem_cons_of_mem _ hw2)
    obtain ⟨b, hb1, hb2, hb3⟩ := applyWrites_spec ws (block.set w.1.toNat w.2) hrest
    refine ⟨b, ?_, ?_, ?_⟩
    · rw [applyWrites, hstore]
      exact hb1
    · rw [hb2, List.length_set]
    · intro n v hn hall hex
      refine hb3 n v (by rw [List.length_set]; exact hn)
        (fun w2 hw2 => hall w2 (List.mem_cons_of_mem _ hw2)) ?_
      by_cases hin : ∃ w2 ∈ ws, w2.1 = (n : Int)
      · exact Or.inl hin
      · right
        rw [List.getElem?_set]
        by_cases hwn : w.1 = (n : Int)
        · have e1 : w.1.toNat = n := by omega
          have e2 : w.1.toNat < block.length := by omega
          rw [if_pos e1, if_pos e2, hall w (List.mem_cons_self _ _) hwn]
        · have e1 : ¬ w.1.toNat = n := by omega
          rw [if_neg e1]
          rcases hex with ⟨w2, hw2, hw2n⟩ | h
          · rcases List.mem_cons.mp hw2 with rfl | h2
            · exact absurd hw2n hwn
            · exact absurd ⟨w2, h2, hw2n⟩ hin
          · exact h

/-- A store outside the block ends the sequence without a result. -/
theorem applyWrites_none : ∀ (ws : List (Int × Nat)) (block : List Nat),
    (∀ w ∈ ws, 0 ≤ w.1 ∧ w.1 < (block.length : Int)) ∨ applyWrites block ws = none
  | [], _ => Or.inl (fun w hw => absurd hw (List.not_mem_nil w))
  | w :: ws, block => by
    by_cases hw : 0 ≤ w.1 ∧ w.1 < (block.length : Int)
    · have hstore : storeByte block w = some (block.set w.1.toNat w.2) := by
        unfold storeByte
        rw [if_pos hw]
      rcases applyWrites_none ws (block.set w.1.toNat w.2) with h | h
      · left
        intro w2 hw2
        rcases List.mem_cons.mp hw2 with rfl | h2
        · exact hw
        · have := h w2 h2
          rw [List.length_set] at this
          exact this
      · right
        rw [applyWrites, hstore]
        exact h
    · right
      have hstore : storeByte block w = none := by
        unfold storeByte
        rw [if_neg hw]
      rw [applyWrites, hstore]

/-- Rasterization over a grid of fewer than `2^31` cells whose split points
lie inside it: the four passes complete, the block has `dim_x * dim_y` bytes, and the byte at the
row-major index of every cell is the value the worker loop computes for that
cell. -/
theorem rasterize_spec (inside : InsideTest) (store : RingStore) (g : Grid) (water : Bool)
    (hx0 : 0 ≤ g.half_range_x) (hx1 : g.half_range_x ≤ g.dim_x)
    (hy0 : 0 ≤ g.half_range_y) (hy1 : g.half_range_y ≤ g.dim_y)
    (hsize : g.dim_x * g.dim_y < 2147483648) :
    ∃ block, rasterize inside store g water = some block ∧
      block.length = (g.dim_x * g.dim_y).toNat ∧
      ∀ i j : Int, 0 ≤ i → i < g.dim_y → 0 ≤ j → j < g.dim_x →
        block[(i * g.dim_x + j).toNat]? = some (cellValue inside store g water i j) := by
  have hd : 0 ≤ g.dim_x * g.dim_y := Int.mul_nonneg (by omega) (by omega)
  have hlen : ((List.replicate (g.dim_x * g.dim_y).toNat 0 : List Nat).length : Int)
      = g.dim_x * g.dim_y := by
    rw [List.length_replicate]
    exact Int.toNat_of_nonneg hd
  have hbounds : ∀ w ∈ allWrites inside store g water,
      0 ≤ w.1 ∧ w.1 < ((List.replicate (g.dim_x * g.dim_y).toNat 0 : List Nat).length : Int) := by
    intro w hw
    obtain ⟨i, j, hi, hj, rfl⟩ := (mem_allWrites hx0 hx1 hy0 hy1 hsize).mp hw
    rw [hlen]
    exact flat_index_bounds hi.1 hi.2 hj.1 hj.2
  obtain ⟨b, hb1, hb2, hb3⟩ := applyWrites_spec _ _ hbounds
  refine ⟨b, by rw [rasterize_eq inside store g water hd hsize]; exact hb1,
    by rw [hb2, List.length_replicate], ?_⟩
  intro i j hi0 hi1 hj0 hj1
  obtain ⟨hlo, hhi⟩ := flat_index_bounds hi0 hi1 hj0 hj1
  have hcast : (((i * g.dim_x + j).toNat : Nat) : Int) = i * g.dim_x + j := Int.toNat_of_nonneg hlo
  refine hb3 _ _ ?_ ?_ ?_
  · rw [List.length_replicate]
    omega
  · intro w hw hwn
    obtain ⟨i2, j2, hi2, hj2, rfl⟩ := (mem_allWrites hx0 hx1 hy0 hy1 hsize).mp hw
    rw [hcast] at hwn
    obtain ⟨e1, e2⟩ := flat_index_inj hj2.1 hj2.2 hj0 hj1 hwn
    subst e1 e2
    rfl
  · left
    refine ⟨(i * g.dim_x + j, cellValue inside store g water i j), ?_, hcast.symm⟩
    exact (mem_allWrites hx0 hx1 hy0 hy1 hsize).mpr ⟨i, j, ⟨hi0, hi1⟩, ⟨hj0, hj1⟩, rfl⟩

end ShapeMask

/-! ## The point classifier -/

namespace ShapeMask

theorem foldl_count (inside : InsideTest) (slon slat : ℚ) : ∀ (store : RingStore) (c : Nat),
    store.foldl (fun inside_count ring => if inside ring slon slat then inside_count + 1 else inside_count) c
      = c + store.countP (fun ring => inside ring slon slat)
  | [], c => by simp
  | ring :: rest, c => by
    rw [List.foldl_cons, foldl_count inside slon slat rest, List.countP_cons]
    by_cases h : inside ring slon slat = true
    · rw [if_pos h, if_pos h]
      omega
    · rw [if_neg h, if_neg h]
      omega

/-- The counter of the ring loop is the number of rings the test reports as
containing the point. -/
theorem insideCount_eq_countP (inside : InsideTest) (store : RingStore) (slon slat : ℚ) :
    insideCount inside store slon slat = store.countP (fun ring => inside ring slon slat) := by
  unfold insideCount
  rw [foldl_count, Nat.zero_add]

/-- The byte stored with the water flag set and the one stored with it clear
are 0 and 1 in one order or the other. -/
theorem cellFlag_water (inside : InsideTest) (store : RingStore) (slon slat : ℚ) :
    (cellFlag inside store false slon slat = 0 ∧ cellFlag inside store true slon slat = 1) ∨
    (cellFlag inside store false slon slat = 1 ∧ cellFlag inside store true slon slat = 0) := by
  unfold cellFlag
  by_cases h : insideCount inside store slon slat % 2 ≠ 0
  · right
    simp [h]
  · left
    simp [h]

/-- Every flat index of the block is the row-major index of one cell. -/
theorem cell_of_index {dx dy n : Int} (hdx : 0 ≤ dx) (h0 : 0 ≤ n) (h1 : n < dx * dy) :
    ∃ i j : Int, (0 ≤ i ∧ i < dy) ∧ (0 ≤ j ∧ j < dx) ∧ i * dx + j = n := by
  have hpos : 0 < dx := by
    rcases lt_or_eq_of_le hdx with h | h
    · exact h
    · rw [← h, Int.zero_mul] at h1
      omega
  refine ⟨n / dx, n % dx, ⟨Int.ediv_nonneg h0 hdx, ?_⟩, ⟨Int.emod_nonneg n (by omega), Int.emod_lt_of_pos n hpos⟩, ?_⟩
  · have h2 : n < dy * dx := by rw [Int.mul_comm]; exact h1
    exact Int.ediv_lt_of_lt_mul hpos h2
  · have := Int.emod_add_ediv n dx
    rw [Int.mul_comm]
    omega

end ShapeMask


/-! ## Two grids outside the reach of the rasterization -/

namespace ShapeMask

/-- The grid of 70000 by 70000 cells. -/
theorem largeGrid_eq : largeGrid.dim_x = 70000 ∧ largeGrid.dim_y = 70000 ∧
    largeGrid.half_range_x = 35000 ∧ largeGrid.half_range_y = 35000 ∧
    largeGrid.x_resolution = 1 / 100000 ∧ largeGrid.y_resolution = 1 / 100000 := by
  decide!

/-- The grid of the envelope (0,0)-(3,3) with steps of -1. -/
theorem negativeGrid_eq : negativeGrid.dim_x = -2 ∧ negativeGrid.dim_y = -2 ∧
    negativeGrid.half_range_x = -1 ∧ negativeGrid.half_range_y = -1 := by
  decide!

/-- On the 70000 by 70000 grid the first pass stores at the negative index
`-2^31`, the 32-bit value of `30678 * 70000 + 23648`. -/
theorem largeGrid_store (inside : InsideTest) (store : RingStore) (water : Bool) :
    ∃ a ∈ maskCalls largeGrid water, ∃ w ∈ run inside store a, w.1 = -2147483648 := by
  obtain ⟨e1, e2, e3, e4, _⟩ := largeGrid_eq
  refine ⟨_, List.mem_cons_self _ _, _, mem_run.mpr ⟨30678, 23648, ?_, ?_, rfl⟩, ?_⟩
  · simp only [e4]
    decide
  · simp only [e3]
    decide
  · simp only [e1]
    decide

/-- A sequence of stores that holds a store of the 70000 by 70000 grid at a
negative index has no result. -/
theorem applyWrites_largeGrid (inside : InsideTest) (store : RingStore) (water : Bool)
    (block : List Nat) (ws : List (Int × Nat))
    (h : ∀ w ∈ allWrites inside store largeGrid water, w ∈ ws) : applyWrites block ws = none := by
  rcases applyWrites_none ws block with hb | hb
  · exfalso
    obtain ⟨a, ha, w, hw, e⟩ := largeGrid_store inside store water
    have := (hb w (h w (List.mem_flatMap.mpr ⟨a, ha, hw⟩))).1
    omega
  · exact hb

/-- The rasterization of the 70000 by 70000 grid yields no block. -/
theorem rasterize_largeGrid (inside : InsideTest) (store : RingStore) (water : Bool) :
    rasterize inside store largeGrid water = none := by
  unfold rasterize
  split
  · rfl
  · exact applyWrites_largeGrid inside store water _ _ (fun _ hw => hw)

end ShapeMask
/-! ## Rasterization: the claims -/

namespace ShapeMask

/-- C4 (polarity inversion), for the grids on which the rasterization fills a
block.  For every test, ring store and grid with the split points inside it
(`0 ≤ half_range ≤ dim` on both axes) and fewer than `2^31` cells, both runs
complete with `dim_x * dim_y` bytes, and at
every index `n` of the block the byte of the run with the water flag set and
the byte of the run with the flag clear are 0 and 1 in one order or the other:
`water[n] = 1 - land[n]`, and the two are never equal. -/
theorem polarity_inversion (inside : InsideTest) (store : RingStore) (g : Grid)
    (hx0 : 0 ≤ g.half_range_x) (hx1 : g.half_range_x ≤ g.dim_x)
    (hy0 : 0 ≤ g.half_range_y) (hy1 : g.half_range_y ≤ g.dim_y)
    (hsize : g.dim_x * g.dim_y < 2147483648) :
    ∃ land water, rasterize inside store g false = some land ∧
      rasterize inside store g true = some water ∧
      land.length = (g.dim_x * g.dim_y).toNat ∧ water.length = (g.dim_x * g.dim_y).toNat ∧
      ∀ n : Nat, n < (g.dim_x * g.dim_y).toNat →
        ∃ a b, land[n]? = some a ∧ water[n]? = some b ∧
          ((a = 0 ∧ b = 1) ∨ (a = 1 ∧ b = 0)) ∧ b = 1 - a ∧ b ≠ a := by
  obtain ⟨land, l1, l2, l3⟩ := rasterize_spec inside store g false hx0 hx1 hy0 hy1 hsize
  obtain ⟨water, w1, w2, w3⟩ := rasterize_spec inside store g true hx0 hx1 hy0 hy1 hsize
  refine ⟨land, water, l1, w1, l2, w2, ?_⟩
  intro n hn
  have hn2 : (n : Int) < g.dim_x * g.dim_y := by omega
  obtain ⟨i, j, hi, hj, hij⟩ := cell_of_index (by omega) (Int.ofNat_nonneg n) hn2
  have e : (i * g.dim_x + j).toNat = n := by omega
  have hl := l3 i j hi.1 hi.2 hj.1 hj.2
  have hw := w3 i j hi.1 hi.2 hj.1 hj.2
  rw [e] at hl hw
  refine ⟨_, _, hl, hw, ?_⟩
  unfold cellValue
  rcases cellFlag_water inside store (g.mbr.min_x + ((j : ℚ) + 1 / 2) * g.x_resolution)
    (g.mbr.min_y + ((i : ℚ) + 1 / 2) * g.y_resolution) with ⟨ha, hb⟩ | ⟨ha, hb⟩
  · rw [ha, hb]
    exact ⟨Or.inl ⟨rfl, rfl⟩, rfl, by decide⟩
  · rw [ha, hb]
    exact ⟨Or.inr ⟨rfl, rfl⟩, rfl, by decide⟩

/-- C4 fails as stated, "for every grid geometry".  For the envelope
(0,0)-(3,3) and steps of -1 the geometry gives dimensions -2 by -2 and half
ranges -1: the block holds `(-2) * (-2) = 4` bytes, no pass stores anything,
and the runs with the flag clear and with the flag set both leave
`[0, 0, 0, 0]`, equal at every index.  For the 70000 by 70000 grid neither run
yields a block. -/
theorem polarity_counterexample :
    (negativeGrid.dim_x = -2 ∧ negativeGrid.dim_y = -2 ∧
      negativeGrid.half_range_x = -1 ∧ negativeGrid.half_range_y = -1) ∧
    (rasterize inside_polygon2 [squareRing] negativeGrid false = some [0, 0, 0, 0] ∧
      rasterize inside_polygon2 [squareRing] negativeGrid true = some [0, 0, 0, 0]) ∧
    (rasterize inside_polygon2 [squareRing] largeGrid false = none ∧
      rasterize inside_polygon2 [squareRing] largeGrid true = none) :=
  ⟨by decide!, by decide!,
    rasterize_largeGrid inside_polygon2 [squareRing] false,
    rasterize_largeGrid inside_polygon2 [squareRing] true⟩

end ShapeMask

namespace ShapeMask

/-- The byte stored for a point flips when the number of containing rings
grows by one. -/
theorem cellFlag_succ (inside : InsideTest) (s t : RingStore) (water : Bool) (px py qx qy : ℚ)
    (h : t.countP (fun ring => inside ring qx qy) = s.countP (fun ring => inside ring px py) + 1) :
    (cellFlag inside s water px py = 0 ∧ cellFlag inside t water qx qy = 1) ∨
    (cellFlag inside s water px py = 1 ∧ cellFlag inside t water qx qy = 0) := by
  unfold cellFlag
  rw [insideCount_eq_countP, insideCount_eq_countP, h]
  rcases Nat.mod_two_eq_zero_or_one (s.countP (fun ring => inside ring px py)) with h0 | h1
  · have e : (s.countP (fun ring => inside ring px py) + 1) % 2 = 1 := by omega
    rw [h0, e]
    cases water <;> simp
  · have e : (s.countP (fun ring => inside ring px py) + 1) % 2 = 0 := by omega
    rw [h1, e]
    cases water <;> simp

/-- C5 (nesting).  For every test, ring store and polarity flag: two points of
which the second lies inside exactly one more ring than the first get
opposite bytes; a ring that contains a point, added anywhere in the store,
flips the byte of that point, and a ring that does not contain it leaves the
byte unchanged. -/
theorem nesting_flips (inside : InsideTest) (store : RingStore) (water : Bool) :
    (∀ px py qx qy : ℚ,
      store.countP (fun ring => inside ring qx qy) = store.countP (fun ring => inside ring px py) + 1 →
      cellFlag inside store water qx qy = 1 - cellFlag inside store water px py ∧
      cellFlag inside store water qx qy ≠ cellFlag inside store water px py) ∧
    (∀ (before after : RingStore) (ring : Ring) (x y : ℚ), store = before ++ after →
      (inside ring x y = true →
        cellFlag inside (before ++ ring :: after) water x y = 1 - cellFlag inside store water x y ∧
        cellFlag inside (before ++ ring :: after) water x y ≠ cellFlag inside store water x y) ∧
      (inside ring x y = false →
        cellFlag inside (before ++ ring :: after) water x y = cellFlag inside store water x y)) := by
  constructor
  · intro px py qx qy h
    rcases cellFlag_succ inside store store water px py qx qy h with ⟨ha, hb⟩ | ⟨ha, hb⟩
    · rw [ha, hb]
      exact ⟨rfl, by decide⟩
    · rw [ha, hb]
      exact ⟨rfl, by decide⟩
  · intro before after ring x y hs
    subst hs
    constructor
    · intro hin
      have h : (before ++ ring :: after).countP (fun r => inside r x y)
          = (before ++ after).countP (fun r => inside r x y) + 1 := by
        rw [List.countP_append, List.countP_append, List.countP_cons, if_pos hin]
        omega
      rcases cellFlag_succ inside (before ++ after) (before ++ ring :: after) water x y x y h
        with ⟨ha, hb⟩ | ⟨ha, hb⟩
      · rw [ha, hb]
        exact ⟨rfl, by decide⟩
      · rw [ha, hb]
        exact ⟨rfl, by decide⟩
    · intro hout
      have hne : ¬ inside ring x y = true := by
        rw [hout]
        decide
      have h : (before ++ ring :: after).countP (fun r => inside r x y)
          = (before ++ after).countP (fun r => inside r x y) := by
        rw [List.countP_append, List.countP_append, List.countP_cons, if_neg hne]
        omega
      unfold cellFlag
      rw [insideCount_eq_countP, insideCount_eq_countP, h]

/-- Split points computed by the grid geometry lie inside the grid as soon as
the dimension is at least 1. -/
theorem half_range_x_bounds (mbr : Mbr) (xr yr : ℚ) (h : 1 ≤ (gridGeometry mbr xr yr).dim_x) :
    0 ≤ (gridGeometry mbr xr yr).half_range_x ∧
      (gridGeometry mbr xr yr).half_range_x ≤ (gridGeometry mbr xr yr).dim_x := by
  by_cases hxr : xr = 0
  · subst hxr
    rw [dim_x_zero_step] at h
    omega
  · have := dim_x_eq mbr xr yr hxr
    omega

theorem half_range_y_bounds (mbr : Mbr) (xr yr : ℚ) (h : 1 ≤ (gridGeometry mbr xr yr).dim_y) :
    0 ≤ (gridGeometry mbr xr yr).half_range_y ∧
      (gridGeometry mbr xr yr).half_range_y ≤ (gridGeometry mbr xr yr).dim_y := by
  by_cases hyr : yr = 0
  · subst hyr
    rw [dim_y_zero_step] at h
    omega
  · have := dim_y_eq mbr xr yr hyr
    omega

/-- For an envelope with `min ≤ max` and positive steps the split points lie
inside the grid, whatever the dimensions. -/
theorem split_points_inside (mbr : Mbr) (xr yr : ℚ)
    (hx : mbr.min_x ≤ mbr.max_x) (hy : mbr.min_y ≤ mbr.max_y) (hxr : 0 < xr) (hyr : 0 < yr) :
    (0 ≤ (gridGeometry mbr xr yr).half_range_x ∧
      (gridGeometry mbr xr yr).half_range_x ≤ (gridGeometry mbr xr yr).dim_x) ∧
    (0 ≤ (gridGeometry mbr xr yr).half_range_y ∧
      (gridGeometry mbr xr yr).half_range_y ≤ (gridGeometry mbr xr yr).dim_y) := by
  have ax : 0 ≤ (gridGeometry mbr xr yr).half_range_x := by
    rw [half_range_x_eq, range_x_eq]
    exact (axis_range _ xr (sub_nonneg.mpr hx) hxr).2.2.2
  have ay : 0 ≤ (gridGeometry mbr xr yr).half_range_y := by
    rw [half_range_y_eq, range_y_eq]
    exact (axis_range _ yr (sub_nonneg.mpr hy) hyr).2.2.2
  have dx := dim_x_eq mbr xr yr hxr.ne'
  have dy := dim_y_eq mbr xr yr hyr.ne'
  exact ⟨⟨ax, by omega⟩, ⟨ay, by omega⟩⟩

/-- C2 (quadrant tiling).  For a grid `g` computed by the grid geometry with
`dim_x, dim_y ≥ 1`, the rectangles of (column, row) indices given to the four
workers are `[0,hx) x [0,hy)`, `[0,hx) x [hy,dim_y)`, `[hx,dim_x) x [0,hy)` and
`[hx,dim_x) x [hy,dim_y)` for the half ranges `hx`, `hy` of the geometry; they
are pairwise disjoint and their union is `[0,dim_x) x [0,dim_y)`. -/
theorem quadrants_tile (mbr : Mbr) (xr yr : ℚ) (water : Bool) (g : Grid)
    (hg : g = gridGeometry mbr xr yr) (hdx : 1 ≤ g.dim_x) (hdy : 1 ≤ g.dim_y) :
    (maskCalls g water).map quadrantCells =
        [ Finset.Ico 0 g.half_range_x ×ˢ Finset.Ico 0 g.half_range_y,
          Finset.Ico 0 g.half_range_x ×ˢ Finset.Ico g.half_range_y g.dim_y,
          Finset.Ico g.half_range_x g.dim_x ×ˢ Finset.Ico 0 g.half_range_y,
          Finset.Ico g.half_range_x g.dim_x ×ˢ Finset.Ico g.half_range_y g.dim_y ] ∧
      ((maskCalls g water).map quadrantCells).Pairwise Disjoint ∧
      ((maskCalls g water).map quadrantCells).foldr (fun q u => q ∪ u) ∅
        = Finset.Ico 0 g.dim_x ×ˢ Finset.Ico 0 g.dim_y := by
  have bx : 0 ≤ g.half_range_x ∧ g.half_range_x ≤ g.dim_x := by
    subst hg
    exact half_range_x_bounds mbr xr yr hdx
  have byy : 0 ≤ g.half_range_y ∧ g.half_range_y ≤ g.dim_y := by
    subst hg
    exact half_range_y_bounds mbr xr yr hdy
  have hlist : (maskCalls g water).map quadrantCells =
      [ Finset.Ico 0 g.half_range_x ×ˢ Finset.Ico 0 g.half_range_y,
        Finset.Ico 0 g.half_range_x ×ˢ Finset.Ico g.half_range_y g.dim_y,
        Finset.Ico g.half_range_x g.dim_x ×ˢ Finset.Ico 0 g.half_range_y,
        Finset.Ico g.half_range_x g.dim_x ×ˢ Finset.Ico g.half_range_y g.dim_y ] := by
    simp [maskCalls, quadrantCells]
  rw [hlist]
  refine ⟨rfl, ?_, ?_⟩
  · simp only [List.pairwise_cons, List.mem_cons, List.mem_singleton, List.not_mem_nil,
      forall_eq_or_imp, forall_eq, IsEmpty.forall_iff, implies_true, List.Pairwise.nil, and_true]
    refine ⟨⟨?_, ?_, ?_⟩, ⟨?_, ?_⟩, ?_⟩ <;>
      · rw [Finset.disjoint_left]
        rintro ⟨c, r⟩ h1 h2
        simp only [Finset.mem_product, Finset.mem_Ico] at h1 h2
        omega
  · ext ⟨c, r⟩
    simp only [List.foldr_cons, List.foldr_nil, Finset.mem_union, Finset.mem_product,
      Finset.mem_Ico, Finset.not_mem_empty, or_false]
    omega

end ShapeMask

/-! ## Each index is stored once -/

namespace ShapeMask

theorem mem_runIdeal_idx {inside : InsideTest} {store : RingStore} {a : MaskArgs} {n : Int} :
    n ∈ (runIdeal inside store a).map Prod.fst ↔
      ∃ i j : Int, (a.start_y ≤ i ∧ i < a.start_y + a.y_dim) ∧
        (a.start_x ≤ j ∧ j < a.start_x + a.x_dim) ∧ n = i * a.width + j := by
  rw [List.mem_map]
  constructor
  · rintro ⟨w, hw, rfl⟩
    obtain ⟨i, j, hi, hj, rfl⟩ := mem_runIdeal.mp hw
    exact ⟨i, j, hi, hj, rfl⟩
  · rintro ⟨i, j, hi, hj, rfl⟩
    exact ⟨_, mem_runIdeal.mpr ⟨i, j, hi, hj, rfl⟩, rfl⟩

theorem map_fst_runIdeal (inside : InsideTest) (store : RingStore) (a : MaskArgs) :
    (runIdeal inside store a).map Prod.fst =
      (forRange a.start_y (a.start_y + a.y_dim)).flatMap fun (i : Int) =>
        (forRange a.start_x (a.start_x + a.x_dim)).map fun (j : Int) => i * a.width + j := by
  unfold runIdeal
  simp only [List.map_flatMap, List.map_map]
  rfl

/-- A worker whose column range lies inside `[0, width)` stores at pairwise
different indices. -/
theorem nodup_runIdeal_idx (inside : InsideTest) (store : RingStore) (a : MaskArgs)
    (h0 : 0 ≤ a.start_x) (h1 : a.start_x + a.x_dim ≤ a.width) :
    ((runIdeal inside store a).map Prod.fst).Nodup := by
  rw [map_fst_runIdeal, List.nodup_flatMap]
  constructor
  · intro i _
    refine (nodup_forRange _ _).map ?_
    intro x y h
    have h2 : i * a.width + x = i * a.width + y := h
    omega
  · refine (nodup_forRange _ _).pairwise_of_forall_ne ?_
    intro i _ i2 _ hne
    show List.Disjoint _ _
    intro n hn hn2
    obtain ⟨j, hj, rfl⟩ := List.mem_map.mp hn
    obtain ⟨j2, hj2, e⟩ := List.mem_map.mp hn2
    rw [mem_forRange] at hj hj2
    exact hne (flat_index_inj (by omega) (by omega) (by omega) (by omega) e.symm).1

theorem flat_index_divmod {d i j : Int} (hj : 0 ≤ j) (hjd : j < d) :
    (i * d + j) % d = j ∧ (i * d + j) / d = i := by
  have hd : 0 < d := by omega
  have e : (i * d + j) / d * d + (i * d + j) % d = i * d + j := by
    have k1 := Int.emod_add_ediv (i * d + j) d
    have k2 : d * ((i * d + j) / d) = (i * d + j) / d * d := Int.mul_comm _ _
    rw [k2] at k1
    rw [Int.add_comm]
    exact k1
  obtain ⟨h1, h2⟩ := flat_index_inj (Int.emod_nonneg _ (by omega)) (Int.emod_lt_of_pos _ hd) hj hjd e
  exact ⟨h2, h1⟩

/-- The four passes together store at pairwise different integer indices. -/
theorem nodup_allWritesIdeal_idx (inside : InsideTest) (store : RingStore) (g : Grid) (water : Bool)
    (hx0 : 0 ≤ g.half_range_x) (hx1 : g.half_range_x ≤ g.dim_x) :
    ((allWritesIdeal inside store g water).map Prod.fst).Nodup := by
  unfold allWritesIdeal
  rw [List.map_flatMap, List.nodup_flatMap]
  constructor
  · intro a ha
    unfold maskCalls at ha
    simp only [List.mem_cons, List.mem_singleton, List.not_mem_nil, or_false] at ha
    rcases ha with rfl | rfl | rfl | rfl <;>
      exact nodup_runIdeal_idx inside store _ (by simp only; omega) (by simp only; omega)
  · unfold maskCalls
    simp only [List.pairwise_cons, List.mem_cons, List.mem_singleton, List.not_mem_nil,
      forall_eq_or_imp, forall_eq, IsEmpty.forall_iff, implies_true, List.Pairwise.nil, and_true]
    refine ⟨⟨?_, ?_, ?_⟩, ⟨?_, ?_⟩, ?_⟩ <;>
      · show List.Disjoint _ _
        intro n hn hn2
        obtain ⟨i, j, hi, hj, rfl⟩ := mem_runIdeal_idx.mp hn
        obtain ⟨i2, j2, hi2, hj2, e⟩ := mem_runIdeal_idx.mp hn2
        simp only at hi hj hi2 hj2 e
        obtain ⟨e1, e2⟩ := flat_index_inj (d := g.dim_x) (by omega) (by omega) (by omega) (by omega) e.symm
        omega

/-- The four passes together store at pairwise different indices, on a grid
of fewer than `2^31` cells with the split points inside it. -/
theorem nodup_allWrites_idx (inside : InsideTest) (store : RingStore) (g : Grid) (water : Bool)
    (hx0 : 0 ≤ g.half_range_x) (hx1 : g.half_range_x ≤ g.dim_x)
    (hy0 : 0 ≤ g.half_range_y) (hy1 : g.half_range_y ≤ g.dim_y)
    (hsize : g.dim_x * g.dim_y < 2147483648) :
    ((allWrites inside store g water).map Prod.fst).Nodup := by
  rw [allWrites_eq_ideal inside store g water hx0 hx1 hy0 hy1 hsize]
  exact nodup_allWritesIdeal_idx inside store g water hx0 hx1

/-- C3 (each index written exactly once), for the grids on which it holds.
For a grid with the split points inside it (`0 ≤ half_range ≤ dim` on both
axes) and fewer than `2^31` cells: summed over the four workers, the number of
stores at index `n` is exactly 1 for every `0 ≤ n < dim_x * dim_y`; and every
store `i * width + j` of a worker is at an index inside `[0, dim_x * dim_y)`
whose column and row (`index % width`, `index / width`) lie in that worker's
own rectangle. -/
theorem writes_exactly_once (inside : InsideTest) (store : RingStore) (water : Bool) (g : Grid)
    (hx0 : 0 ≤ g.half_range_x) (hx1 : g.half_range_x ≤ g.dim_x)
    (hy0 : 0 ≤ g.half_range_y) (hy1 : g.half_range_y ≤ g.dim_y)
    (hsize : g.dim_x * g.dim_y < 2147483648) :
    (∀ n : Int, 0 ≤ n → n < g.dim_x * g.dim_y →
      ((maskCalls g water).map
        (fun a => ((run inside store a).map Prod.fst).count n)).sum = 1) ∧
    (∀ a ∈ maskCalls g water, ∀ w ∈ run inside store a,
      (0 ≤ w.1 ∧ w.1 < g.dim_x * g.dim_y) ∧
      (w.1 % a.width, w.1 / a.width) ∈ quadrantCells a) := by
  constructor
  · intro n h0 h1
    obtain ⟨i, j, hi, hj, hij⟩ := cell_of_index (by omega) h0 h1
    have hmem : n ∈ (allWrites inside store g water).map Prod.fst := by
      rw [List.mem_map]
      exact ⟨(i * g.dim_x + j, cellValue inside store g water i j),
        (mem_allWrites hx0 hx1 hy0 hy1 hsize).mpr ⟨i, j, hi, hj, rfl⟩, hij⟩
    have hone := List.count_eq_one_of_mem
      (nodup_allWrites_idx inside store g water hx0 hx1 hy0 hy1 hsize) hmem
    unfold allWrites at hone
    rw [List.map_flatMap, List.count_flatMap] at hone
    exact hone
  · intro a ha w hw
    rw [run_eq_of_mem_maskCalls inside store g water hx0 hx1 hy0 hy1 hsize a ha] at hw
    obtain ⟨i, j, hi, hj, rfl⟩ := mem_runIdeal.mp hw
    unfold maskCalls at ha
    simp only [List.mem_cons, List.mem_singleton, List.not_mem_nil, or_false] at ha
    rcases ha with rfl | rfl | rfl | rfl <;>
      · simp only at hi hj
        simp only [quadrantCells, Finset.mem_product, Finset.mem_Ico]
        obtain ⟨b1, b2⟩ := @flat_index_bounds g.dim_x g.dim_y i j
          (by omega) (by omega) (by omega) (by omega)
        obtain ⟨m1, m2⟩ := flat_index_divmod (d := g.dim_x) (i := i) (j := j) (by omega) (by omega)
        rw [m1, m2]
        exact ⟨⟨b1, b2⟩, by omega, by omega⟩

/-- C3 fails as stated.  For the envelope (0,0)-(3,3) and steps of -1 the block
has `(-2) * (-2) = 4` bytes and no worker stores anything: the number of
stores at index 0, and at the indices 1, 2, 3, is 0 and not 1.  On the 70000
by 70000 grid the worker of the first pass stores at the index `-2^31`,
outside `[0, dim_x * dim_y)`. -/
theorem writes_once_counterexample :
    negativeGrid.dim_x * negativeGrid.dim_y = 4 ∧
    (∀ n ∈ [(0 : Int), 1, 2, 3],
      ((maskCalls negativeGrid false).map
        (fun a => ((run inside_polygon2 [squareRing] a).map Prod.fst).count n)).sum = 0) ∧
    (∃ a ∈ maskCalls largeGrid false, ∃ w ∈ run inside_polygon2 [squareRing] a,
      ¬ (0 ≤ w.1 ∧ w.1 < largeGrid.dim_x * largeGrid.dim_y)) := by
  refine ⟨by decide!, by decide!, ?_⟩
  obtain ⟨a, ha, w, hw, e⟩ := largeGrid_store inside_polygon2 [squareRing] false
  exact ⟨a, ha, w, hw, by omega⟩

end ShapeMask
/-! ## The worked scenario -/

namespace ShapeMask

theorem crossings_square (x y : ℚ) :
    crossings squareRing x y =
      (if 0 ≤ y ∧ y < 10 ∧ x < 0 then 1 else 0) + (if 0 ≤ y ∧ y < 10 ∧ x < 10 then 1 else 0) := by
  have hz : squareRing.zip (squareRing.rotateRight 1)
      = [((0, 0), (0, 10)), ((10, 0), (0, 0)), ((10, 10), (10, 0)), ((0, 10), (10, 10))] := by
    decide!
  unfold crossings
  rw [hz]
  simp only [List.countP_cons, List.countP_nil]
  by_cases h0 : 0 ≤ y <;> by_cases h1 : y < 10 <;> by_cases h2 : x < 0 <;> by_cases h3 : x < 10 <;>
    simp [h0, h1, h2, h3] <;>
      first | linarith | (split_ifs <;> first | rfl | (exfalso; linarith))

/-- The crossing test on the square ring: inside exactly on `[0,10) x [0,10)`. -/
theorem inside_square (x y : ℚ) :
    inside_polygon2 squareRing x y = decide (0 ≤ x ∧ x < 10 ∧ 0 ≤ y ∧ y < 10) := by
  unfold inside_polygon2
  rw [crossings_square]
  by_cases h0 : 0 ≤ y <;> by_cases h1 : y < 10 <;> by_cases h2 : x < 0 <;> by_cases h3 : x < 10 <;>
    simp [h0, h1, h2, h3] <;> linarith

/-- The byte stored for a point against the single square ring, land polarity. -/
theorem cellFlag_square (x y : ℚ) :
    cellFlag inside_polygon2 [squareRing] false x y
      = if 0 ≤ x ∧ x < 10 ∧ 0 ≤ y ∧ y < 10 then 1 else 0 := by
  unfold cellFlag
  rw [insideCount_eq_countP, List.countP_cons, List.countP_nil, inside_square]
  by_cases h : 0 ≤ x ∧ x < 10 ∧ 0 ≤ y ∧ y < 10
  · simp [h]
  · simp [h]

/-- C6 (concrete scenario).  With the single ring (0,0),(10,0),(10,10),(0,10),
land polarity, both steps 1 and the envelope (-2,-2)-(12,12), the grid geometry
has origin (-2,-2), half ranges 7 and dimensions 14 x 14; the rasterization
completes with 196 bytes, the byte of every cell whose centre lies inside
(1,1)-(9,9) is 1 and the byte of every cell whose centre lies outside the
square (0,0)-(10,10) is 0, `inside_polygon2` being the even-odd crossing
test. -/
theorem concrete_scenario :
    gridGeometry scenarioMbr 1 1
      = { center_x := 5, center_y := 5, x_resolution := 1, y_resolution := 1
          range_x := 15, range_y := 15, half_range_x := 7, half_range_y := 7
          mbr := { min_x := -2, min_y := -2, max_x := 12, max_y := 12 }
          dim_x := 14, dim_y := 14 } ∧
    ∃ block, rasterize inside_polygon2 [squareRing] (gridGeometry scenarioMbr 1 1) false = some block ∧
      block.length = 196 ∧
      ∀ i j : Int, 0 ≤ i → i < 14 → 0 ≤ j → j < 14 →
        ((1 < -2 + ((j : ℚ) + 1 / 2) * 1 ∧ -2 + ((j : ℚ) + 1 / 2) * 1 < 9 ∧
            1 < -2 + ((i : ℚ) + 1 / 2) * 1 ∧ -2 + ((i : ℚ) + 1 / 2) * 1 < 9) →
          block[(i * 14 + j).toNat]? = some 1) ∧
        ((-2 + ((j : ℚ) + 1 / 2) * 1 < 0 ∨ 10 < -2 + ((j : ℚ) + 1 / 2) * 1 ∨
            -2 + ((i : ℚ) + 1 / 2) * 1 < 0 ∨ 10 < -2 + ((i : ℚ) + 1 / 2) * 1) →
          block[(i * 14 + j).toNat]? = some 0) := by
  have hg : gridGeometry scenarioMbr 1 1
      = { center_x := 5, center_y := 5, x_resolution := 1, y_resolution := 1
          range_x := 15, range_y := 15, half_range_x := 7, half_range_y := 7
          mbr := { min_x := -2, min_y := -2, max_x := 12, max_y := 12 }
          dim_x := 14, dim_y := 14 } := by
    decide!
  refine ⟨hg, ?_⟩
  rw [hg]
  obtain ⟨block, h1, h2, h3⟩ := rasterize_spec inside_polygon2 [squareRing]
    { center_x := 5, center_y := 5, x_resolution := 1, y_resolution := 1
      range_x := 15, range_y := 15, half_range_x := 7, half_range_y := 7
      mbr := { min_x := -2, min_y := -2, max_x := 12, max_y := 12 }
      dim_x := 14, dim_y := 14 } false (by decide) (by decide) (by decide) (by decide)
    (by decide)
  refine ⟨block, h1, h2, ?_⟩
  intro i j hi0 hi1 hj0 hj1
  have hc := h3 i j hi0 hi1 hj0 hj1
  rw [cellValue, cellFlag_square] at hc
  simp only at hc
  constructor
  · rintro ⟨a1, a2, a3, a4⟩
    rw [hc, if_pos ⟨by linarith, by linarith, by linarith, by linarith⟩]
  · intro hout
    rw [hc, if_neg]
    rintro ⟨a1, a2, a3, a4⟩
    rcases hout with h | h | h | h <;> linarith

end ShapeMask

/-! ## Instances at concrete inputs -/

namespace ShapeMask

/-- Witness for C2: the grid of the worked scenario, dimensions 14 x 14, split at 7 and 7. -/
theorem quadrants_tile_witness :
    (1 ≤ scenarioGrid.dim_x ∧ 1 ≤ scenarioGrid.dim_y) ∧
    ((maskCalls scenarioGrid false).map quadrantCells =
        [ Finset.Ico 0 scenarioGrid.half_range_x ×ˢ Finset.Ico 0 scenarioGrid.half_range_y,
          Finset.Ico 0 scenarioGrid.half_range_x ×ˢ Finset.Ico scenarioGrid.half_range_y scenarioGrid.dim_y,
          Finset.Ico scenarioGrid.half_range_x scenarioGrid.dim_x ×ˢ Finset.Ico 0 scenarioGrid.half_range_y,
          Finset.Ico scenarioGrid.half_range_x scenarioGrid.dim_x ×ˢ Finset.Ico scenarioGrid.half_range_y scenarioGrid.dim_y ] ∧
      ((maskCalls scenarioGrid false).map quadrantCells).Pairwise Disjoint ∧
      ((maskCalls scenarioGrid false).map quadrantCells).foldr (fun q u => q ∪ u) ∅
        = Finset.Ico 0 scenarioGrid.dim_x ×ˢ Finset.Ico 0 scenarioGrid.dim_y) :=
  ⟨⟨by decide!, by decide!⟩,
    quadrants_tile scenarioMbr 1 1 false scenarioGrid rfl (by decide!) (by decide!)⟩

/-- Witness for C3: the square ring over the 14 x 14 grid of the worked scenario, land polarity. -/
theorem writes_exactly_once_witness :
    (0 ≤ scenarioGrid.half_range_x ∧ scenarioGrid.half_range_x ≤ scenarioGrid.dim_x ∧
      0 ≤ scenarioGrid.half_range_y ∧ scenarioGrid.half_range_y ≤ scenarioGrid.dim_y ∧
      scenarioGrid.dim_x * scenarioGrid.dim_y < 2147483648) ∧
    ((∀ n : Int, 0 ≤ n → n < scenarioGrid.dim_x * scenarioGrid.dim_y →
      ((maskCalls scenarioGrid false).map
        (fun a => ((run inside_polygon2 [squareRing] a).map Prod.fst).count n)).sum = 1) ∧
    (∀ a ∈ maskCalls scenarioGrid false, ∀ w ∈ run inside_polygon2 [squareRing] a,
      (0 ≤ w.1 ∧ w.1 < scenarioGrid.dim_x * scenarioGrid.dim_y) ∧
      (w.1 % a.width, w.1 / a.width) ∈ quadrantCells a)) :=
  ⟨⟨by decide!, by decide!, by decide!, by decide!, by decide!⟩,
    writes_exactly_once inside_polygon2 [squareRing] false scenarioGrid (by decide!) (by decide!) (by decide!) (by decide!)
      (by decide!)⟩

/-- Witness for C4: the square ring over the 14 x 14 grid of the worked scenario. -/
theorem polarity_inversion_witness :
    (0 ≤ scenarioGrid.half_range_x ∧ scenarioGrid.half_range_x ≤ scenarioGrid.dim_x ∧
      0 ≤ scenarioGrid.half_range_y ∧ scenarioGrid.half_range_y ≤ scenarioGrid.dim_y ∧
      scenarioGrid.dim_x * scenarioGrid.dim_y < 2147483648) ∧
    (∃ land water, rasterize inside_polygon2 [squareRing] scenarioGrid false = some land ∧
      rasterize inside_polygon2 [squareRing] scenarioGrid true = some water ∧
      land.length = (scenarioGrid.dim_x * scenarioGrid.dim_y).toNat ∧ water.length = (scenarioGrid.dim_x * scenarioGrid.dim_y).toNat ∧
      ∀ n : Nat, n < (scenarioGrid.dim_x * scenarioGrid.dim_y).toNat →
        ∃ a b, land[n]? = some a ∧ water[n]? = some b ∧
          ((a = 0 ∧ b = 1) ∨ (a = 1 ∧ b = 0)) ∧ b = 1 - a ∧ b ≠ a) :=
  ⟨⟨by decide!, by decide!, by decide!, by decide!, by decide!⟩,
    polarity_inversion inside_polygon2 [squareRing] scenarioGrid (by decide!) (by decide!) (by decide!) (by decide!)
      (by decide!)⟩

/-- Instance of C5: with the 10 x 10 square ring and the concentric 4 x 4
square ring, the point (5,5) inside the inner square lies in one more ring
than the point (1,1) of the annulus, and the two get opposite bytes. -/
theorem nesting_flips_witness :
    [squareRing, innerRing].countP (fun ring => inside_polygon2 ring 5 5)
        = [squareRing, innerRing].countP (fun ring => inside_polygon2 ring 1 1) + 1 ∧
      cellFlag inside_polygon2 [squareRing, innerRing] false 5 5
        = 1 - cellFlag inside_polygon2 [squareRing, innerRing] false 1 1 ∧
      cellFlag inside_polygon2 [squareRing, innerRing] false 5 5
        ≠ cellFlag inside_polygon2 [squareRing, innerRing] false 1 1 :=
  ⟨by decide!, (nesting_flips inside_polygon2 [squareRing, innerRing] false).1 1 1 5 5 (by decide!)⟩

end ShapeMask

/-! ## Grid geometry: extent and degenerate axes -/

namespace ShapeMask

end ShapeMask

namespace ShapeMask

/-- In exact arithmetic the geometry with rounded operations is `gridGeometry`. -/
theorem gridGeometryRounded_exact (mbr : Mbr) (xr yr : ℚ) :
    gridGeometryRounded (fun x => x) mbr xr yr = gridGeometry mbr xr yr := rfl

end ShapeMask


/-! ## The rounding of binary64 -/

namespace ShapeMask

theorem bitLength_zero (fuel : Nat) : bitLength fuel 0 = 0 := by
  cases fuel <;> simp [bitLength]

/-- The number of binary digits brackets the number: `n < 2^b ≤ 2 * n`. -/
theorem bitLength_spec : ∀ (fuel n : Nat), n ≤ fuel → 0 < n →
    n < 2 ^ bitLength fuel n ∧ 2 ^ bitLength fuel n ≤ 2 * n
  | 0, n, h, hn => by omega
  | fuel + 1, n, h, hn => by
    have hne : ¬ n = 0 := by omega
    rw [bitLength, if_neg hne]
    by_cases h2 : n / 2 = 0
    · rw [h2, bitLength_zero]
      have : n = 1 := by omega
      subst this
      decide
    · obtain ⟨a, b⟩ := bitLength_spec fuel (n / 2) (by omega) (by omega)
      rw [pow_succ]
      generalize 2 ^ bitLength fuel (n / 2) = p at a b
      omega

theorem pow2_eq (e : Int) : pow2 e = (2 : ℚ) ^ e := by
  unfold pow2
  by_cases h : 0 ≤ e
  · rw [if_pos h]
    obtain ⟨k, rfl⟩ := Int.eq_ofNat_of_zero_le h
    simp
  · rw [if_neg h]
    obtain ⟨k, hk⟩ := Int.eq_ofNat_of_zero_le (by omega : 0 ≤ -e)
    have e1 : e = -(k : Int) := by omega
    rw [hk, e1]
    simp

theorem pow2_pos (e : Int) : 0 < pow2 e := by
  rw [pow2_eq]
  positivity

theorem pow2_succ (e : Int) : pow2 (e + 1) = pow2 e * 2 := by
  rw [pow2_eq, pow2_eq, zpow_add_one₀ (by norm_num)]

/-- The nearest integer is at most one half away. -/
theorem roundHalfEven_error (s : ℚ) : |(roundHalfEven s : ℚ) - s| ≤ 1 / 2 := by
  have h1 := Int.floor_le s
  have h2 := Int.lt_floor_add_one s
  unfold roundHalfEven
  rw [abs_le]
  split_ifs <;> push_cast <;> constructor <;> linarith

/-- The significand: a positive rational is at least `2^52` times the power of
2 it is scaled by. -/
theorem roundPos_scale (q : ℚ) (hq : 0 < q) :
    pow2 52 ≤ q / pow2 ((bitLength q.num.natAbs q.num.natAbs : Int)
      - (bitLength q.den q.den : Int) - 53) := by
  have hn : 0 < q.num.natAbs := Int.natAbs_pos.mpr (Rat.num_pos.mpr hq).ne'
  obtain ⟨-, a2⟩ := bitLength_spec q.num.natAbs q.num.natAbs (le_refl _) hn
  obtain ⟨b1, -⟩ := bitLength_spec q.den q.den (le_refl _) q.den_pos
  have hq2 : q * (q.den : ℚ) = (q.num.natAbs : ℚ) := by
    have e1 : ((q.num.natAbs : Nat) : Int) = q.num :=
      Int.natAbs_of_nonneg (Rat.num_pos.mpr hq).le
    have e2 : (((q.num.natAbs : Nat) : Int) : ℚ) = (q.num : ℚ) := congrArg (fun z : Int => (z : ℚ)) e1
    rw [Rat.mul_den_eq_num, ← e2, Int.cast_natCast]
  have hA : ((2 : ℚ) ^ bitLength q.num.natAbs q.num.natAbs) ≤ 2 * (q.num.natAbs : ℚ) := by
    exact_mod_cast a2
  have hB : (q.den : ℚ) ≤ (2 : ℚ) ^ bitLength q.den q.den := by
    exact_mod_cast b1.le
  have hd : (0 : ℚ) < (q.den : ℚ) := by exact_mod_cast q.den_pos
  have hpA : (0 : ℚ) < (2 : ℚ) ^ bitLength q.num.natAbs q.num.natAbs := by positivity
  have hpB : (0 : ℚ) < (2 : ℚ) ^ bitLength q.den q.den := by positivity
  have hp : pow2 ((bitLength q.num.natAbs q.num.natAbs : Int) - (bitLength q.den q.den : Int) - 53)
      = (2 : ℚ) ^ bitLength q.num.natAbs q.num.natAbs / ((2 : ℚ) ^ bitLength q.den q.den * 2 ^ 53) := by
    rw [pow2_eq, zpow_sub₀ (by norm_num), zpow_sub₀ (by norm_num), zpow_natCast, zpow_natCast,
      div_div]
    norm_num
  have h52 : pow2 52 = 2 ^ 52 := by
    rw [pow2_eq]
    norm_num
  rw [hp, h52, le_div_iff₀ (div_pos hpA (mul_pos hpB (by positivity))), ← mul_div_assoc,
    div_le_iff₀ (mul_pos hpB (by positivity))]
  have key : (2 : ℚ) ^ bitLength q.num.natAbs q.num.natAbs * (q.den : ℚ)
      ≤ 2 * (q.num.natAbs : ℚ) * (2 : ℚ) ^ bitLength q.den q.den :=
    mul_le_mul hA hB hd.le (by positivity)
  have e3 : q * ((2 : ℚ) ^ bitLength q.den q.den * 2 ^ 53)
      = (q * (q.den : ℚ)) * ((2 : ℚ) ^ bitLength q.den q.den * 2 ^ 53) / (q.den : ℚ) := by
    rw [mul_right_comm, mul_div_assoc, div_self hd.ne', mul_one]
  rw [e3, hq2, le_div_iff₀ hd]
  nlinarith [key]

/-- The double nearest to a positive rational is within the relative error
`2^-53`. -/
theorem roundPos_error (q : ℚ) (hq : 0 < q) : |roundPos q - q| ≤ q / 2 ^ 53 := by
  have hs := roundPos_scale q hq
  have h52 : pow2 52 = 2 ^ 52 := by
    rw [pow2_eq]
    norm_num
  have h53 : pow2 53 = 2 ^ 53 := by
    rw [pow2_eq]
    norm_num
  have key : ∀ e : Int, pow2 52 ≤ q / pow2 e →
      |(roundHalfEven (q / pow2 e) : ℚ) * pow2 e - q| ≤ q / 2 ^ 53 := by
    intro e he
    have hp := pow2_pos e
    have e1 : (roundHalfEven (q / pow2 e) : ℚ) * pow2 e - q
        = ((roundHalfEven (q / pow2 e) : ℚ) - q / pow2 e) * pow2 e := by
      rw [sub_mul, div_mul_cancel₀ _ hp.ne']
    rw [e1, abs_mul, abs_of_pos hp]
    have h1 := roundHalfEven_error (q / pow2 e)
    have h2 : 2 ^ 52 * pow2 e ≤ q := by
      rw [h52] at he
      exact (le_div_iff₀ hp).mp he
    have h3 : |(roundHalfEven (q / pow2 e) : ℚ) - q / pow2 e| * pow2 e ≤ 1 / 2 * pow2 e :=
      mul_le_mul_of_nonneg_right h1 hp.le
    have h4 : q / 2 ^ 53 = q * (1 / 2 ^ 53) := by ring
    rw [h4]
    norm_num at h2 ⊢
    linarith
  unfold roundPos
  simp only
  split_ifs with hc
  · refine key _ ?_
    rw [pow2_succ, ← div_div, h52]
    rw [h53] at hc
    rw [le_div_iff₀ (by norm_num)]
    norm_num at hc ⊢
    linarith
  · exact key _ hs

/-- The rounding `roundDouble` has a relative error of at most `2^-53`. -/
theorem roundDouble_error (x : ℚ) : |roundDouble x - x| ≤ |x| / 2 ^ 53 := by
  unfold roundDouble
  by_cases h0 : x = 0
  · rw [if_pos h0, h0]
    simp
  · rw [if_neg h0]
    by_cases hneg : x < 0
    · rw [if_pos hneg, abs_of_neg hneg]
      have h := roundPos_error (-x) (by linarith)
      have e : -roundPos (-x) - x = -(roundPos (-x) - -x) := by ring
      rw [e, abs_neg]
      exact h
    · rw [if_neg hneg]
      have hpos : 0 < x := lt_of_le_of_ne (not_lt.mp hneg) (Ne.symm h0)
      rw [abs_of_pos hpos]
      exact roundPos_error x hpos

end ShapeMask
/-! ## The progress value -/

namespace ShapeMask

/-- C15 fails as stated.  In a quadrant of height 3 starting at row 0 the value
computed after row 2 is 66, while `round (100 * (2 / 3))` is 67: the cast
truncates.  In a quadrant of height 100 the value computed after row 29 is 28,
while `100 * (29 / 100)` is 29: the double nearest to 0.29, times 100, is
rounded to the double just below 29.  The double operations are rounded as
binary64 rounds them. -/
theorem percent_round_counterexample :
    (percent roundDouble 2 0 3 = 66 ∧
      NINT (100 * ((((2 : Int) - 0 : Int) : ℚ) / ((3 : Int) : ℚ))) = 67) ∧
    (percent roundDouble 29 0 100 = 28 ∧
      NINT (100 * ((((29 : Int) - 0 : Int) : ℚ) / ((100 : Int) : ℚ))) = 29 ∧
      roundDouble (roundDouble ((((29 : Int) - 0 : Int) : ℚ) / ((100 : Int) : ℚ)) * 100)
        = 8162774324609023 / 281474976710656) := by
  decide!

/-- A rounding with relative error at most `2^-53` on the normal range of
binary64 keeps a value that is zero, or lies between `2^-32` and 101, between
its two neighbours. -/
theorem fl_bounds (fl : ℚ → ℚ)
    (hfl : ∀ x : ℚ, x = 0 ∨ (1 / 2 ^ 1022 ≤ |x| ∧ |x| ≤ 2 ^ 1023) → |fl x - x| ≤ |x| / 2 ^ 53)
    (x : ℚ) (hx : x = 0 ∨ (1 / 2 ^ 32 ≤ x ∧ x ≤ 101)) :
    x - x / 2 ^ 53 ≤ fl x ∧ fl x ≤ x + x / 2 ^ 53 := by
  rcases hx with rfl | ⟨h1, h2⟩
  · have h := hfl 0 (Or.inl rfl)
    rw [abs_zero, zero_div, sub_zero] at h
    have e : fl 0 = 0 := abs_eq_zero.mp (le_antisymm h (abs_nonneg _))
    rw [e]
    norm_num
  · have hpos : 0 < x := lt_of_lt_of_le (by norm_num) h1
    have h := hfl x (Or.inr ⟨by
      rw [abs_of_pos hpos]
      exact le_trans (by norm_num) h1, by
      rw [abs_of_pos hpos]
      exact le_trans h2 (by norm_num)⟩)
    rw [abs_of_pos hpos, abs_le] at h
    constructor <;> linarith [h.1, h.2]

/-- The double product of the progress value, against the exact product
`100 * x = K + r` with `0 ≤ r ≤ 1 - t` and `t > 2^-31`: it lies in
`[K - 1, K + 1)`, and in `[K, K + 1)` when `r ≥ t`. -/
theorem percent_bracket (fl : ℚ → ℚ)
    (hfl : ∀ x : ℚ, x = 0 ∨ (1 / 2 ^ 1022 ≤ |x| ∧ |x| ≤ 2 ^ 1023) → |fl x - x| ≤ |x| / 2 ^ 53)
    (x K r t : ℚ) (hx0 : x = 0 ∨ 1 / 2147483648 ≤ x) (hx1 : x ≤ 1) (hq : 100 * x = K + r)
    (hr0 : 0 ≤ r) (hr1 : r ≤ 1 - t) (ht : 1 / 2147483648 < t) :
    0 ≤ fl (fl x * 100) ∧ K - 1 ≤ fl (fl x * 100) ∧ fl (fl x * 100) < K + 1 ∧
      (t ≤ r → K ≤ fl (fl x * 100)) := by
  have u : (2 : ℚ) ^ 53 = 9007199254740992 := by norm_num
  have v : (2 : ℚ) ^ 32 = 4294967296 := by norm_num
  have hx2 : x = 0 ∨ (1 / 2 ^ 32 ≤ x ∧ x ≤ 101) := by
    rcases hx0 with h | h
    · exact Or.inl h
    · right
      rw [v]
      constructor <;> linarith
  have hxn : 0 ≤ x := by
    rcases hx0 with h | h
    · rw [h]
    · linarith
  obtain ⟨a1, a2⟩ := fl_bounds fl hfl x hx2
  rw [u] at a1 a2
  have hf2 : fl x * 100 = 0 ∨ (1 / 2 ^ 32 ≤ fl x * 100 ∧ fl x * 100 ≤ 101) := by
    rcases hx0 with h | h
    · left
      rw [h] at a1 a2
      have : fl x = 0 := by
        rw [h]
        linarith
      rw [this, zero_mul]
    · right
      rw [v]
      constructor <;> linarith
  obtain ⟨b1, b2⟩ := fl_bounds fl hfl (fl x * 100) hf2
  rw [u] at b1 b2
  refine ⟨by linarith, by linarith, by linarith, fun h => by linarith⟩

/-- C15 (amended).  After row `i` of a quadrant with first row `start_y`
and height `y_dim` below `2^31` (`start_y ≤ i < start_y + y_dim`), the value
computed is the truncation of the double product, which is its floor.  When
the rounding of the double operations has a relative error of at most `2^-53`
on the normal range of binary64, that value is the integer quotient of
`100 * (i - start_y)` by `y_dim` or one less, and it is the quotient when
`y_dim` does not divide `100 * (i - start_y)`; it lies between 0 and 99. -/
theorem percent_truncates (fl : ℚ → ℚ)
    (hfl : ∀ x : ℚ, x = 0 ∨ (1 / 2 ^ 1022 ≤ |x| ∧ |x| ≤ 2 ^ 1023) → |fl x - x| ≤ |x| / 2 ^ 53)
    (i start_y y_dim : Int) (hi : start_y ≤ i) (hlt : i < start_y + y_dim)
    (hy : y_dim < 2147483648) :
    percent fl i start_y y_dim = ⌊fl (fl (((i - start_y : Int) : ℚ) / (y_dim : ℚ)) * 100)⌋ ∧
      (100 * (i - start_y)) / y_dim - 1 ≤ percent fl i start_y y_dim ∧
      percent fl i start_y y_dim ≤ (100 * (i - start_y)) / y_dim ∧
      (¬ y_dim ∣ 100 * (i - start_y) →
        percent fl i start_y y_dim = (100 * (i - start_y)) / y_dim) ∧
      0 ≤ percent fl i start_y y_dim ∧ percent fl i start_y y_dim ≤ 99 := by
  have hd0 : 0 < y_dim := by omega
  have hd : (0 : ℚ) < (y_dim : ℚ) := by exact_mod_cast hd0
  have hdlt : (y_dim : ℚ) < 2147483648 := by exact_mod_cast hy
  have hn : (0 : ℚ) ≤ ((i - start_y : Int) : ℚ) := by exact_mod_cast (by omega : 0 ≤ i - start_y)
  have hnd : ((i - start_y : Int) : ℚ) ≤ (y_dim : ℚ) := by
    exact_mod_cast (by omega : i - start_y ≤ y_dim)
  -- the exact quotient `100 * (i - start_y) / y_dim` as integer part and remainder
  have hdiv := Int.emod_add_ediv (100 * (i - start_y)) y_dim
  have hr0 : 0 ≤ (100 * (i - start_y)) % y_dim := Int.emod_nonneg _ (by omega)
  have hr1 : (100 * (i - start_y)) % y_dim < y_dim := Int.emod_lt_of_pos _ hd0
  have hK0 : 0 ≤ (100 * (i - start_y)) / y_dim := Int.ediv_nonneg (by omega) (by omega)
  have hK1 : (100 * (i - start_y)) / y_dim < 100 := Int.ediv_lt_of_lt_mul hd0 (by omega)
  have hq : 100 * (((i - start_y : Int) : ℚ) / (y_dim : ℚ))
      = (((100 * (i - start_y)) / y_dim : Int) : ℚ)
        + (((100 * (i - start_y)) % y_dim : Int) : ℚ) / (y_dim : ℚ) := by
    have c : (((100 * (i - start_y)) % y_dim : Int) : ℚ)
        + (y_dim : ℚ) * (((100 * (i - start_y)) / y_dim : Int) : ℚ)
        = 100 * ((i - start_y : Int) : ℚ) := by exact_mod_cast hdiv
    rw [← mul_div_assoc, ← c, add_div, mul_div_cancel_left₀ _ hd.ne', add_comm]
  have hrq1 : (((100 * (i - start_y)) % y_dim : Int) : ℚ) / (y_dim : ℚ) ≤ 1 - 1 / (y_dim : ℚ) := by
    have : (((100 * (i - start_y)) % y_dim : Int) : ℚ) ≤ (y_dim : ℚ) - 1 := by
      exact_mod_cast (by omega : (100 * (i - start_y)) % y_dim ≤ y_dim - 1)
    rw [div_le_iff₀ hd, sub_mul, one_mul, one_div, inv_mul_cancel₀ hd.ne']
    exact this
  have hx0 : ((i - start_y : Int) : ℚ) / (y_dim : ℚ) = 0
      ∨ 1 / 2147483648 ≤ ((i - start_y : Int) : ℚ) / (y_dim : ℚ) := by
    by_cases hz : i - start_y = 0
    · left
      rw [hz, Int.cast_zero, zero_div]
    · right
      have h1 : (1 : ℚ) ≤ ((i - start_y : Int) : ℚ) := by
        exact_mod_cast (by omega : 1 ≤ i - start_y)
      exact le_trans (one_div_lt_one_div_of_lt hd hdlt).le
        (div_le_div_of_nonneg_right h1 hd.le)
  obtain ⟨hv, hlo, hup, hlo2⟩ := percent_bracket fl hfl _ _ _ _ hx0
    ((div_le_one hd).mpr hnd) hq (div_nonneg (by exact_mod_cast hr0) hd.le) hrq1
    (one_div_lt_one_div_of_lt hd hdlt)
  have e1 : percent fl i start_y y_dim
      = ⌊fl (fl (((i - start_y : Int) : ℚ) / (y_dim : ℚ)) * 100)⌋ := by
    unfold percent
    exact toInt32_of_nonneg hv
  have f1 : ⌊fl (fl (((i - start_y : Int) : ℚ) / (y_dim : ℚ)) * 100)⌋
      < (100 * (i - start_y)) / y_dim + 1 := by
    rw [Int.floor_lt, Int.cast_add, Int.cast_one]
    exact hup
  have f2 : (100 * (i - start_y)) / y_dim - 1
      ≤ ⌊fl (fl (((i - start_y : Int) : ℚ) / (y_dim : ℚ)) * 100)⌋ := by
    rw [Int.le_floor, Int.cast_sub, Int.cast_one]
    exact hlo
  have f3 : 0 ≤ ⌊fl (fl (((i - start_y : Int) : ℚ) / (y_dim : ℚ)) * 100)⌋ :=
    Int.floor_nonneg.mpr hv
  refine ⟨e1, by rw [e1]; exact f2, by rw [e1]; omega, ?_, by rw [e1]; exact f3,
    by rw [e1]; omega⟩
  intro hnd
  have hr2 : 1 ≤ (100 * (i - start_y)) % y_dim := by
    by_contra h
    exact hnd (Int.dvd_of_emod_eq_zero (by omega))
  have hrq2 : 1 / (y_dim : ℚ) ≤ (((100 * (i - start_y)) % y_dim : Int) : ℚ) / (y_dim : ℚ) :=
    div_le_div_of_nonneg_right (by exact_mod_cast hr2) hd.le
  have f4 := Int.le_floor.mpr (hlo2 hrq2)
  rw [e1]
  omega

/-- Instance of C15 (amended): row 29 of a quadrant of height 100 with the
rounding of binary64; the value is 28, one less than the quotient 29. -/
theorem percent_truncates_witness :
    ((∀ x : ℚ, x = 0 ∨ (1 / 2 ^ 1022 ≤ |x| ∧ |x| ≤ 2 ^ 1023) →
        |roundDouble x - x| ≤ |x| / 2 ^ 53) ∧
      (0 : Int) ≤ 29 ∧ (29 : Int) < 0 + 100 ∧ (100 : Int) < 2147483648) ∧
    percent roundDouble 29 0 100 = 28 ∧
    (percent roundDouble 29 0 100
        = ⌊roundDouble (roundDouble ((((29 : Int) - 0 : Int) : ℚ) / ((100 : Int) : ℚ)) * 100)⌋ ∧
      (100 * (29 - 0)) / 100 - 1 ≤ percent roundDouble 29 0 100 ∧
      percent roundDouble 29 0 100 ≤ (100 * (29 - 0)) / 100 ∧
      (¬ (100 : Int) ∣ 100 * (29 - 0) →
        percent roundDouble 29 0 100 = (100 * (29 - 0)) / 100) ∧
      0 ≤ percent roundDouble 29 0 100 ∧ percent roundDouble 29 0 100 ≤ 99) :=
  ⟨⟨fun x _ => roundDouble_error x, by decide, by decide, by decide⟩, by decide!,
    percent_truncates roundDouble (fun x _ => roundDouble_error x) 29 0 100
      (by decide) (by decide) (by decide)⟩

end ShapeMask

namespace ShapeMask

end ShapeMask

/-! ## Order independence -/

namespace ShapeMask

/-- The length of the block of a grid of fewer than `2^31` cells. -/
theorem zeroBlock_length (g : Grid) (h0 : 0 ≤ g.dim_x * g.dim_y)
    (hsize : g.dim_x * g.dim_y < 2147483648) :
    ((zeroBlock g).length : Int) = g.dim_x * g.dim_y := by
  unfold zeroBlock
  rw [List.length_replicate, wrap32_of_bounds (by omega) hsize, Int.toNat_of_nonneg h0]

theorem zeroBlock_eq (inside : InsideTest) (store : RingStore) (g : Grid) (water : Bool)
    (h0 : 0 ≤ g.dim_x * g.dim_y) (hsize : g.dim_x * g.dim_y < 2147483648) :
    rasterize inside store g water = applyWrites (zeroBlock g) (allWrites inside store g water) := by
  unfold rasterize
  rw [wrap32_of_bounds (by omega) hsize, if_neg (by omega)]

/-- Taking the next store of one trace out of the traces is a permutation of
all the stores. -/
theorem flatten_set_perm (w : Int × Nat) (rest : List (Int × Nat)) :
    ∀ (traces : List (List (Int × Nat))) (k : Nat), traces[k]? = some (w :: rest) →
      traces.flatten.Perm (w :: (traces.set k rest).flatten)
  | [], k, h => by simp at h
  | t :: ts, 0, h => by
    have e : t = w :: rest := by simpa using h
    subst e
    simp
  | t :: ts, k + 1, h => by
    have h2 : ts[k]? = some (w :: rest) := by simpa using h
    have ih := flatten_set_perm w rest ts k h2
    rw [List.set_cons_succ, List.flatten_cons, List.flatten_cons]
    exact (List.Perm.append_left t ih).trans List.perm_middle

/-- The stores performed under a schedule, with the stores left over, are a
permutation of all the stores of the traces. -/
theorem interleave_perm : ∀ (schedule : List Nat) (traces : List (List (Int × Nat))),
    ((interleave traces schedule).1 ++ (interleave traces schedule).2.flatten).Perm traces.flatten
  | [], traces => by simp [interleave]
  | k :: schedule, traces => by
    rw [interleave]
    split
    · rename_i w rest h
      have ih := interleave_perm schedule (traces.set k rest)
      exact (List.Perm.cons w ih).trans (flatten_set_perm w rest traces k h).symm
    · exact interleave_perm schedule traces

/-- Stores at pairwise different indices inside the block give the same block
in any order. -/
theorem applyWrites_perm (block : List Nat) (ws ws2 : List (Int × Nat)) (hp : ws2.Perm ws)
    (hn : (ws.map Prod.fst).Nodup) (hb : ∀ w ∈ ws, 0 ≤ w.1 ∧ w.1 < (block.length : Int)) :
    applyWrites block ws2 = applyWrites block ws := by
  have hb2 : ∀ w ∈ ws2, 0 ≤ w.1 ∧ w.1 < (block.length : Int) :=
    fun w hw => hb w (hp.mem_iff.mp hw)
  have hn2 : (ws2.map Prod.fst).Nodup := ((hp.map Prod.fst).nodup_iff).mpr hn
  obtain ⟨c, c1, c2, c3⟩ := applyWrites_spec ws block hb
  obtain ⟨d, d1, d2, d3⟩ := applyWrites_spec ws2 block hb2
  rw [c1, d1]
  congr 1
  apply List.ext_getElem?
  intro n
  by_cases hlt : n < block.length
  · by_cases hit : ∃ w ∈ ws, w.1 = (n : Int)
    · obtain ⟨w, hw, hwn⟩ := hit
      have hw2 : w ∈ ws2 := hp.mem_iff.mpr hw
      have k1 : ∀ u ∈ ws, u.1 = (n : Int) → u.2 = w.2 := by
        intro u hu hun
        rw [List.inj_on_of_nodup_map hn hu hw (hun.trans hwn.symm)]
      have k2 : ∀ u ∈ ws2, u.1 = (n : Int) → u.2 = w.2 := by
        intro u hu hun
        rw [List.inj_on_of_nodup_map hn2 hu hw2 (hun.trans hwn.symm)]
      rw [c3 n w.2 hlt k1 (Or.inl ⟨w, hw, hwn⟩), d3 n w.2 hlt k2 (Or.inl ⟨w, hw2, hwn⟩)]
    · have hit2 : ¬ ∃ w ∈ ws2, w.1 = (n : Int) := by
        rintro ⟨w, hw, hwn⟩
        exact hit ⟨w, hp.mem_iff.mp hw, hwn⟩
      have k0 : block[n]? = some block[n] := List.getElem?_eq_getElem hlt
      have k1 : ∀ u ∈ ws, u.1 = (n : Int) → u.2 = block[n] :=
        fun u hu hun => absurd ⟨u, hu, hun⟩ hit
      have k2 : ∀ u ∈ ws2, u.1 = (n : Int) → u.2 = block[n] :=
        fun u hu hun => absurd ⟨u, hu, hun⟩ hit2
      rw [c3 n _ hlt k1 (Or.inr k0), d3 n _ hlt k2 (Or.inr k0)]
  · rw [List.getElem?_eq_none (by omega), List.getElem?_eq_none (by omega)]

/-- The stores of the four passes fall inside the block. -/
theorem allWrites_bounds (inside : InsideTest) (store : RingStore) (g : Grid) (water : Bool)
    (hx0 : 0 ≤ g.half_range_x) (hx1 : g.half_range_x ≤ g.dim_x)
    (hy0 : 0 ≤ g.half_range_y) (hy1 : g.half_range_y ≤ g.dim_y)
    (hsize : g.dim_x * g.dim_y < 2147483648) :
    ∀ w ∈ allWrites inside store g water, 0 ≤ w.1 ∧ w.1 < ((zeroBlock g).length : Int) := by
  intro w hw
  obtain ⟨i, j, hi, hj, rfl⟩ := (mem_allWrites hx0 hx1 hy0 hy1 hsize).mp hw
  have hd : 0 ≤ g.dim_x * g.dim_y := Int.mul_nonneg (by omega) (by omega)
  rw [zeroBlock_length g hd hsize]
  exact flat_index_bounds hi.1 hi.2 hj.1 hj.2

/-- C11 (order independence), for the grids whose flat indices fit 32 bits.
For a grid with the split points inside it and fewer than `2^31` cells, take
the four workers' sequences of stores.  Whatever schedule interleaves
them, once every worker has performed all its stores the zero-filled block
has become the block that the passes produce when run one after the other;
in particular this holds for each sequential order of the four passes; and
that block exists. -/
theorem order_independence (inside : InsideTest) (store : RingStore) (water : Bool) (g : Grid)
    (hx0 : 0 ≤ g.half_range_x) (hx1 : g.half_range_x ≤ g.dim_x)
    (hy0 : 0 ≤ g.half_range_y) (hy1 : g.half_range_y ≤ g.dim_y)
    (hsize : g.dim_x * g.dim_y < 2147483648) :
    (∃ block, rasterize inside store g water = some block) ∧
    (∀ schedule : List Nat,
      (∀ t ∈ (interleave ((maskCalls g water).map (run inside store)) schedule).2, t = []) →
      applyWrites (zeroBlock g)
          (interleave ((maskCalls g water).map (run inside store)) schedule).1
        = rasterize inside store g water) ∧
    (∀ calls : List MaskArgs, calls.Perm (maskCalls g water) →
      applyWrites (zeroBlock g) (calls.flatMap (run inside store))
        = rasterize inside store g water) := by
  have hd : 0 ≤ g.dim_x * g.dim_y := Int.mul_nonneg (by omega) (by omega)
  have hn := nodup_allWrites_idx inside store g water hx0 hx1 hy0 hy1 hsize
  have hb := allWrites_bounds inside store g water hx0 hx1 hy0 hy1 hsize
  refine ⟨?_, ?_, ?_⟩
  · obtain ⟨block, h, -⟩ := rasterize_spec inside store g water hx0 hx1 hy0 hy1 hsize
    exact ⟨block, h⟩
  · intro schedule hdone
    rw [zeroBlock_eq inside store g water hd hsize]
    refine applyWrites_perm _ _ _ ?_ hn hb
    have hp := interleave_perm schedule ((maskCalls g water).map (run inside store))
    rw [List.flatten_eq_nil_iff.mpr hdone, List.append_nil] at hp
    unfold allWrites
    rw [List.flatMap_def]
    exact hp
  · intro calls hp
    rw [zeroBlock_eq inside store g water hd hsize]
    exact applyWrites_perm _ _ _ (List.Perm.flatMap_right _ hp) hn hb

/-- C11 fails as stated on a large grid.  On the 70000 by 70000 grid, whose
split points lie inside it, the flat indices do not fit 32 bits: the worker of
the first quadrant stores 1 at index 0 for the cell of row 0 and column 0,
inside the ring, and the worker of the fourth quadrant stores 0 at the same
index 0 for the cell of row 61356 and column 47296, outside the ring (its
index 4294967296 is 0 in 32 bits); and the passes run one after the other
do not yield a block. -/
theorem order_counterexample :
    ((0 ≤ largeGrid.half_range_x ∧ largeGrid.half_range_x ≤ largeGrid.dim_x) ∧
      (0 ≤ largeGrid.half_range_y ∧ largeGrid.half_range_y ≤ largeGrid.dim_y)) ∧
    (∃ a b, (maskCalls largeGrid false)[0]? = some a ∧ (maskCalls largeGrid false)[3]? = some b ∧
      (0, 1) ∈ run inside_polygon2 [cornerRing] a ∧
      (0, 0) ∈ run inside_polygon2 [cornerRing] b) ∧
    rasterize inside_polygon2 [cornerRing] largeGrid false = none := by
  refine ⟨⟨⟨by decide!, by decide!⟩, ⟨by decide!, by decide!⟩⟩, ⟨_, _, rfl, rfl, ?_, ?_⟩,
    rasterize_largeGrid inside_polygon2 [cornerRing] false⟩
  · exact mem_run.mpr ⟨0, 0, by decide!, by decide!, by decide!⟩
  · exact mem_run.mpr ⟨61356, 47296, by decide!, by decide!, by decide!⟩

/-- Instance of C11: the 4 x 4 grid with the two nested square rings, every
worker with four stores, under a schedule that switches between the four
workers while each of them is still storing. -/
theorem order_independence_witness :
    (0 ≤ smallGrid.half_range_x ∧ smallGrid.half_range_x ≤ smallGrid.dim_x ∧
      0 ≤ smallGrid.half_range_y ∧ smallGrid.half_range_y ≤ smallGrid.dim_y ∧
      smallGrid.dim_x * smallGrid.dim_y < 2147483648) ∧
    ((maskCalls smallGrid false).map (fun a => (run inside_polygon2 [squareRing, innerRing] a).length)
        = [4, 4, 4, 4] ∧
      (interleave ((maskCalls smallGrid false).map (run inside_polygon2 [squareRing, innerRing]))
        [0, 1, 2, 3, 3, 2, 1, 0, 0, 0, 1, 1, 2, 2, 3, 3]).1
        = [(0, 1), (8, 1), (2, 1), (10, 1), (11, 1), (3, 1), (9, 1), (1, 1),
            (4, 1), (5, 1), (12, 1), (13, 1), (6, 1), (7, 1), (14, 1), (15, 0)]) ∧
    (∀ t ∈ (interleave ((maskCalls smallGrid false).map (run inside_polygon2 [squareRing, innerRing]))
        [0, 1, 2, 3, 3, 2, 1, 0, 0, 0, 1, 1, 2, 2, 3, 3]).2, t = []) ∧
    rasterize inside_polygon2 [squareRing, innerRing] smallGrid false
      = some [1, 1, 1, 1, 1, 1, 1, 1, 1, 1, 1, 1, 1, 1, 1, 0] ∧
    applyWrites (zeroBlock smallGrid)
        (interleave ((maskCalls smallGrid false).map (run inside_polygon2 [squareRing, innerRing]))
          [0, 1, 2, 3, 3, 2, 1, 0, 0, 0, 1, 1, 2, 2, 3, 3]).1
      = rasterize inside_polygon2 [squareRing, innerRing] smallGrid false :=
  ⟨⟨by decide!, by decide!, by decide!, by decide!, by decide!⟩, ⟨by decide!, by decide!⟩,
    by decide!, by decide!,
    (order_independence inside_polygon2 [squareRing, innerRing] false smallGrid
      (by decide!) (by decide!) (by decide!) (by decide!) (by decide!)).2.1
      [0, 1, 2, 3, 3, 2, 1, 0, 0, 0, 1, 1, 2, 2, 3, 3] (by decide!)⟩

end ShapeMask
/-! ## The mask file -/

namespace ShapeMask

theorem forRange_zero (n : Nat) : forRange 0 (n : Int) = (List.range n).map fun (k : Nat) => (k : Int) := by
  unfold forRange
  simp

/-- The indices read by the output loops are `0, 1, ..., dim_x * dim_y - 1`, in order. -/
theorem raster_indices (a : Nat) : ∀ b : Nat,
    ((forRange 0 (b : Int)).flatMap fun (i : Int) =>
        (forRange 0 (a : Int)).map fun (j : Int) => i * (a : Int) + j)
      = forRange 0 ((a * b : Nat) : Int)
  | 0 => by simp [forRange]
  | b + 1 => by
    have ih := raster_indices a b
    rw [forRange_zero] at ih ⊢
    rw [forRange_zero, forRange_zero] at *
    rw [List.range_succ, List.map_append, List.flatMap_append, ih]
    have e : a * (b + 1) = a * b + a := by ring
    rw [e, List.range_add, List.map_append]
    congr 1
    simp only [List.map_cons, List.map_nil, List.flatMap_cons, List.flatMap_nil, List.append_nil,
      List.map_map]
    apply List.map_congr_left
    intro k _
    simp only [Function.comp]
    push_cast
    ring

/-- The 32-bit indices read by the output loops of a grid of fewer than `2^31`
cells are `0, 1, ..., dim_x * dim_y - 1`, in order. -/
theorem raster_indices_wrapped (a b : Nat) (hsize : (a : Int) * (b : Int) < 2147483648) :
    ((forRange 0 (b : Int)).flatMap fun (i : Int) =>
        (forRange 0 (a : Int)).map fun (j : Int) => wrap32 (wrap32 (i * (a : Int)) + j))
      = forRange 0 ((a * b : Nat) : Int) := by
  rw [← raster_indices a b]
  refine flatMap_congr_mem ?_
  intro i hi
  refine List.map_congr_left ?_
  intro j hj
  rw [mem_forRange] at hi hj
  obtain ⟨b1, b2⟩ := @flat_index_bounds (a : Int) (b : Int) i j hi.1 hi.2 hj.1 hj.2
  have h1 : 0 ≤ i * (a : Int) := Int.mul_nonneg hi.1 (by omega)
  have w1 : wrap32 (i * (a : Int)) = i * (a : Int) := wrap32_of_bounds (by omega) (by omega)
  have w2 : wrap32 (i * (a : Int) + j) = i * (a : Int) + j :=
    wrap32_of_bounds (by omega) (by omega)
  rw [w1, w2]

/-- Reading indices that all lie inside the block succeeds. -/
theorem readBytes_some (block : List Nat) : ∀ (idxs : List Int),
    (∀ x ∈ idxs, 0 ≤ x ∧ x < (block.length : Int)) →
    readBytes block idxs = some (idxs.map fun x => block.getD x.toNat 0)
  | [], _ => rfl
  | x :: rest, h => by
    have hx := h x (List.mem_cons_self _ _)
    have ih := readBytes_some block rest (fun y hy => h y (List.mem_cons_of_mem _ hy))
    have hlt : x.toNat < block.length := by omega
    have hr : readByte block x = some (block.getD x.toNat 0) := by
      unfold readByte
      rw [if_pos hx.1, List.getD_eq_getElem?_getD, List.getElem?_eq_getElem hlt]
      rfl
    rw [readBytes, hr, ih]
    rfl

/-- Reading the whole block index by index gives the block. -/
theorem readBytes_all (block : List Nat) :
    readBytes block (forRange 0 (block.length : Int)) = some block := by
  have hb : ∀ x ∈ forRange 0 (block.length : Int), 0 ≤ x ∧ x < (block.length : Int) :=
    fun x hx => mem_forRange.mp hx
  rw [readBytes_some block _ hb, forRange_zero, List.map_map]
  congr 1
  apply List.ext_getElem
  · simp
  · intro n h1 h2
    simp [List.getD_eq_getElem?_getD, List.getElem?_eq_getElem h2]

theorem cellFlag_le_one (inside : InsideTest) (store : RingStore) (water : Bool) (slon slat : ℚ) :
    cellFlag inside store water slon slat ≤ 1 := by
  unfold cellFlag
  split_ifs <;> decide

end ShapeMask

namespace ShapeMask

/-- The zero bytes written after a header shorter than 16384 bytes. -/
theorem padding_eq (n : Nat) :
    ((forRange (n : Int) 16384).map fun (_ : Int) => (0 : Nat)) = List.replicate (16384 - n) 0 := by
  rw [List.eq_replicate_iff]
  constructor
  · unfold forRange
    simp only [List.length_map, List.length_range]
    omega
  · intro b hb
    obtain ⟨_, _, rfl⟩ := List.mem_map.mp hb
    rfl

/-- The file written for a block of `dim_x * dim_y` bytes with `dim_x, dim_y ≥ 0`
and `dim_x * dim_y < 2^31`. -/
theorem maskFile_eq (header block : List Nat) (dim_x dim_y : Int) (hx : 0 ≤ dim_x) (hy : 0 ≤ dim_y)
    (hsize : dim_x * dim_y < 2147483648) (hlen : block.length = (dim_x * dim_y).toNat) :
    maskFile header block dim_x dim_y
      = some (header ++ List.replicate (16384 - header.length) 0 ++ block) := by
  obtain ⟨a, rfl⟩ := Int.eq_ofNat_of_zero_le hx
  obtain ⟨b, rfl⟩ := Int.eq_ofNat_of_zero_le hy
  have hl : (block.length : Int) = ((a * b : Nat) : Int) := by
    rw [hlen]
    push_cast
    exact Int.toNat_of_nonneg (Int.mul_nonneg hx hy)
  unfold maskFile
  simp only
  rw [raster_indices_wrapped a b hsize, ← hl, readBytes_all, padding_eq]

/-- The file written over a grid without rows: the header and the zero bytes
up to offset 16384, and nothing more. -/
theorem maskFile_no_rows (header block : List Nat) (dim_x dim_y : Int) (hy : dim_y ≤ 0) :
    maskFile header block dim_x dim_y
      = some (header ++ List.replicate (16384 - header.length) 0) := by
  have e : forRange 0 dim_y = [] := by
    rw [List.eq_nil_iff_forall_not_mem]
    intro x hx
    rw [mem_forRange] at hx
    omega
  unfold maskFile
  simp only
  rw [e, List.flatMap_nil, readBytes, padding_eq]
  simp only [List.append_nil]

/-- C12 (output layout), for the grids on which the rasterization fills a
block.  For a header text shorter than 16384 bytes and a grid with the split
points inside it and fewer than `2^31` cells, the rasterization and the
output loops complete, and the file is the header, then zero bytes up to
offset 16384, then the block: its length is `16384 + dim_x * dim_y`, and the
byte at offset `16384 + i * dim_x + j` is the byte of the block for row `i`
and column `j`, the value computed for the cell with centre
`(min_x + (j + 0.5) * x_res, min_y + (i + 0.5) * y_res)`, which is 0 or 1. -/
theorem mask_file_layout (inside : InsideTest) (store : RingStore) (water : Bool) (g : Grid)
    (header : List Nat) (hh : header.length < 16384)
    (hx0 : 0 ≤ g.half_range_x) (hx1 : g.half_range_x ≤ g.dim_x)
    (hy0 : 0 ≤ g.half_range_y) (hy1 : g.half_range_y ≤ g.dim_y)
    (hsize : g.dim_x * g.dim_y < 2147483648) :
    ∃ block file, rasterize inside store g water = some block ∧
      maskFile header block g.dim_x g.dim_y = some file ∧
      file = header ++ List.replicate (16384 - header.length) 0 ++ block ∧
      file.length = 16384 + (g.dim_x * g.dim_y).toNat ∧
      (∀ k : Nat, k < header.length → file[k]? = header[k]?) ∧
      (∀ k : Nat, header.length ≤ k → k < 16384 → file[k]? = some 0) ∧
      ∀ i j : Int, 0 ≤ i → i < g.dim_y → 0 ≤ j → j < g.dim_x →
        file[16384 + (i * g.dim_x + j).toNat]? = block[(i * g.dim_x + j).toNat]? ∧
        file[16384 + (i * g.dim_x + j).toNat]? = some (cellValue inside store g water i j) ∧
        (cellValue inside store g water i j = 0 ∨ cellValue inside store g water i j = 1) := by
  obtain ⟨block, h1, h2, h3⟩ := rasterize_spec inside store g water hx0 hx1 hy0 hy1 hsize
  have hf := maskFile_eq header block g.dim_x g.dim_y (by omega) (by omega) hsize h2
  have hpre : (header ++ List.replicate (16384 - header.length) 0).length = 16384 := by
    rw [List.length_append, List.length_replicate]
    omega
  refine ⟨block, _, h1, hf, rfl, ?_, ?_, ?_, ?_⟩
  · rw [List.length_append, hpre, h2]
  · intro k hk
    rw [List.append_assoc, List.getElem?_append_left hk]
  · intro k hk1 hk2
    have hk3 : k < (header ++ List.replicate (16384 - header.length) 0).length := by omega
    rw [List.getElem?_append_left hk3, List.getElem?_append_right hk1, List.getElem?_replicate,
      if_pos (by omega)]
  · intro i j hi0 hi1 hj0 hj1
    have e : (header ++ List.replicate (16384 - header.length) 0 ++ block)[16384
        + (i * g.dim_x + j).toNat]? = block[(i * g.dim_x + j).toNat]? := by
      have e2 : 16384 + (i * g.dim_x + j).toNat - 16384 = (i * g.dim_x + j).toNat := by omega
      rw [List.getElem?_append_right (by omega), hpre, e2]
    refine ⟨e, by rw [e, h3 i j hi0 hi1 hj0 hj1], ?_⟩
    have := cellFlag_le_one inside store water (g.mbr.min_x + ((j : ℚ) + 1 / 2) * g.x_resolution)
      (g.mbr.min_y + ((i : ℚ) + 1 / 2) * g.y_resolution)
    unfold cellValue
    omega

/-- C12 fails as stated.  For the envelope (0,0)-(3,3) and steps of -1 the
dimensions are -2 by -2 and `dim_x * dim_y` is 4: the block has 4 bytes, but
the output loops write no raster byte, and for every header shorter than
16384 bytes the file has 16384 bytes and not `16384 + dim_x * dim_y`.  For
the 70000 by 70000 grid the rasterization yields no block to write. -/
theorem mask_file_counterexample :
    (negativeGrid.dim_x * negativeGrid.dim_y = 4 ∧
      rasterize inside_polygon2 [squareRing] negativeGrid false = some [0, 0, 0, 0]) ∧
    (∀ header : List Nat, header.length < 16384 →
      ∃ file, maskFile header [0, 0, 0, 0] negativeGrid.dim_x negativeGrid.dim_y = some file ∧
        file.length = 16384 ∧
        file.length ≠ 16384 + (negativeGrid.dim_x * negativeGrid.dim_y).toNat) ∧
    rasterize inside_polygon2 [squareRing] largeGrid false = none := by
  refine ⟨⟨by decide!, by decide!⟩, ?_, rasterize_largeGrid inside_polygon2 [squareRing] false⟩
  intro header hh
  obtain ⟨e1, e2, -, -⟩ := negativeGrid_eq
  refine ⟨_, maskFile_no_rows header _ _ _ (by omega), ?_, ?_⟩
  · rw [List.length_append, List.length_replicate]
    omega
  · rw [List.length_append, List.length_replicate, e1, e2]
    have : ((-2 : Int) * -2).toNat = 4 := by decide
    omega

/-- Instance of C12: the header that the program writes for the 4 x 4 grid,
382 bytes, the two nested square rings, land polarity. -/
theorem mask_file_layout_witness :
    (sampleHeader.length = 382 ∧ sampleHeader.length < 16384 ∧
      0 ≤ smallGrid.half_range_x ∧ smallGrid.half_range_x ≤ smallGrid.dim_x ∧
      0 ≤ smallGrid.half_range_y ∧ smallGrid.half_range_y ≤ smallGrid.dim_y ∧
      smallGrid.dim_x * smallGrid.dim_y < 2147483648) ∧
    rasterize inside_polygon2 [squareRing, innerRing] smallGrid false
      = some [1, 1, 1, 1, 1, 1, 1, 1, 1, 1, 1, 1, 1, 1, 1, 0] ∧
    ∃ block file, rasterize inside_polygon2 [squareRing, innerRing] smallGrid false = some block ∧
      maskFile sampleHeader block smallGrid.dim_x smallGrid.dim_y = some file ∧
      file = sampleHeader ++ List.replicate (16384 - sampleHeader.length) 0 ++ block ∧
      file.length = 16384 + (smallGrid.dim_x * smallGrid.dim_y).toNat ∧
      (∀ k : Nat, k < sampleHeader.length → file[k]? = sampleHeader[k]?) ∧
      (∀ k : Nat, sampleHeader.length ≤ k → k < 16384 → file[k]? = some 0) ∧
      ∀ i j : Int, 0 ≤ i → i < smallGrid.dim_y → 0 ≤ j → j < smallGrid.dim_x →
        file[16384 + (i * smallGrid.dim_x + j).toNat]? = block[(i * smallGrid.dim_x + j).toNat]? ∧
        file[16384 + (i * smallGrid.dim_x + j).toNat]?
          = some (cellValue inside_polygon2 [squareRing, innerRing] smallGrid false i j) ∧
        (cellValue inside_polygon2 [squareRing, innerRing] smallGrid false i j = 0 ∨
          cellValue inside_polygon2 [squareRing, innerRing] smallGrid false i j = 1) :=
  ⟨⟨by decide!, by decide!, by decide!, by decide!, by decide!, by decide!, by decide!⟩,
    by decide!,
    mask_file_layout inside_polygon2 [squareRing, innerRing] false smallGrid sampleHeader
      (by decide!) (by decide!) (by decide!) (by decide!) (by decide!) (by decide!)⟩

end ShapeMask
/-! ## Reading the shapes: the vertex loop -/

namespace ShapeMask

theorem drop_cons_facts {ps : List Int} {n : Nat} {r : Int} {rs : List Int} (h : ps.drop n = r :: rs) :
    ps[n]? = some r ∧ n < ps.length ∧ ps.drop (n + 1) = rs := by
  have h1 : ps[n]? = some r := by
    have := @List.getElem?_drop _ ps n 0
    rw [h] at this
    simpa using this.symm
  have h2 : n < ps.length := by
    by_contra hc
    rw [List.drop_eq_nil_of_le (by omega)] at h
    exact List.noConfusion h
  have h3 : ps.drop (n + 1) = rs := by
    have := List.drop_drop 1 n ps
    rw [h] at this
    simpa using this.symm
  exact ⟨h1, h2, h3⟩

/-- The step for a vertex at which the next part starts: a new ring holding the vertex. -/
theorem vertexStep_hit (ps : List Int) (j : Nat) (v : ℚ × ℚ) (numParts : Nat) (done : List Ring)
    (cur : Ring) (hn : numParts < ps.length) (hp : ps[numParts]? = some (j : Int)) :
    vertexStep ps j v numParts { num_poly := (done.length : Int), poly := done ++ [cur] }
      = some (numParts + 1,
          { num_poly := ((done ++ [cur]).length : Int), poly := (done ++ [cur]) ++ [[v]] }) := by
  have e : ((done.length : Int) + 1).toNat = (done ++ [cur]).length := by
    rw [List.length_append]; simp
  have e2 : (done ++ [cur] ++ [[]])[(done ++ [cur]).length]? = some ([] : Ring) := by
    rw [List.getElem?_append_right (Nat.le_refl _)]
    simp
  have e3 : (0 : Int) ≤ (done.length : Int) + 1 := by omega
  unfold vertexStep
  simp only [hn, hp, and_self, decide_True, Bool.or_true, if_true, e, e2, e3]
  simp

/-- The step for a later vertex at which no part starts: the vertex joins the last ring. -/
theorem vertexStep_pass (ps : List Int) (j : Nat) (v : ℚ × ℚ) (numParts : Nat) (done : List Ring)
    (cur : Ring) (hj : 1 ≤ j) (hp : ¬ (numParts < ps.length ∧ ps[numParts]? = some (j : Int))) :
    vertexStep ps j v numParts { num_poly := (done.length : Int), poly := done ++ [cur] }
      = some (numParts, { num_poly := (done.length : Int), poly := done ++ [cur ++ [v]] }) := by
  have hj0 : ¬ j = 0 := by omega
  simp [vertexStep, hp, hj0]

/-- The step for the first vertex of a shape with parts: a new ring holding the vertex. -/
theorem vertexStep_first (ps : List Int) (v : ℚ × ℚ) (numParts : Nat) (store : List Ring)
    (h0 : 0 < ps.length) (hp : ¬ (numParts < ps.length ∧ ps[numParts]? = some (0 : Int))) :
    vertexStep ps 0 v numParts { num_poly := (store.length : Int) - 1, poly := store }
      = some (numParts, { num_poly := (store.length : Int), poly := store ++ [[v]] }) := by
  have e2 : (store ++ [[]])[store.length]? = some ([] : Ring) := by
    rw [List.getElem?_append_right (Nat.le_refl _)]
    simp
  have hp2 : ¬ (numParts < ps.length ∧ ps[numParts]? = some (((0 : Nat) : Int))) := hp
  unfold vertexStep
  simp only [hp2, h0, and_self, decide_True, decide_False, Bool.or_false, if_true, Bool.false_eq_true,
    if_false]
  simp [e2]

theorem glue_glue (cur : Ring) (v : ℚ × ℚ) (ps : List Ring) :
    glue cur (glue [v] ps) = glue (cur ++ [v]) ps := by
  cases ps <;> simp [glue]

theorem pieces_length : ∀ (starts : List Int) (rest : List (ℚ × ℚ)) (j : Nat),
    (pieces rest j starts).length = starts.length + 1
  | [], _, _ => rfl
  | r :: starts, rest, j => by
    rw [pieces, List.length_cons, pieces_length starts, List.length_cons]

/-- Slicing from one vertex earlier, when every start offset lies after it. -/
theorem pieces_cons_gt (v : ℚ × ℚ) (rest : List (ℚ × ℚ)) (j : Nat) (starts : List Int)
    (h : ∀ r ∈ starts, (j : Int) < r) :
    pieces (v :: rest) j starts = glue [v] (pieces rest (j + 1) starts) := by
  cases starts with
  | nil => rfl
  | cons r rs =>
    have hr := h r (List.mem_cons_self _ _)
    have e : r.toNat - j = (r.toNat - (j + 1)) + 1 := by omega
    rw [pieces, pieces, e, List.take_succ_cons, List.drop_succ_cons]
    rfl

/-- The vertex loop from a later vertex on: the ring being filled is continued
up to the next start offset, then one ring is added per remaining part. -/
theorem readVertices_pieces (ps : List Int) : ∀ (rest : List (ℚ × ℚ)) (j numParts : Nat)
    (done : List Ring) (cur : Ring), 1 ≤ j →
    (ps.drop numParts).Pairwise (fun a b => a < b) →
    (∀ r ∈ ps.drop numParts, (j : Int) ≤ r ∧ r < (j : Int) + (rest.length : Int)) →
    readVertices ps rest j numParts { num_poly := (done.length : Int), poly := done ++ [cur] }
      = some { num_poly := (done.length : Int) + ((ps.drop numParts).length : Int),
               poly := done ++ glue cur (pieces rest j (ps.drop numParts)) }
  | [], j, numParts, done, cur, _, _, hb => by
    have hnil : ps.drop numParts = [] := by
      rw [List.eq_nil_iff_forall_not_mem]
      intro r hr
      have := hb r hr
      simp only [List.length_nil] at this
      omega
    rw [hnil]
    simp [readVertices, pieces, glue]
  | v :: rest, j, numParts, done, cur, hj, hpw, hb => by
    by_cases hit : numParts < ps.length ∧ ps[numParts]? = some (j : Int)
    · obtain ⟨hn, hp⟩ := hit
      have hd : ps.drop numParts = (j : Int) :: ps.drop (numParts + 1) := by
        rw [List.drop_eq_getElem_cons hn]
        congr 1
        rw [List.getElem?_eq_getElem hn] at hp
        exact Option.some.inj hp
      rw [hd] at hpw hb
      have hgt : ∀ r ∈ ps.drop (numParts + 1), (j : Int) < r :=
        fun r hr => (List.pairwise_cons.mp hpw).1 r hr
      have ih := readVertices_pieces ps rest (j + 1) (numParts + 1) (done ++ [cur]) [v]
        (by omega) (List.pairwise_cons.mp hpw).2
        (fun r hr => by
          have h1 := hgt r hr
          have h2 := (hb r (List.mem_cons_of_mem _ hr)).2
          simp only [List.length_cons] at h2
          push_cast at h2 ⊢
          omega)
      rw [readVertices, vertexStep_hit ps j v numParts done cur hn hp]
      simp only
      have e1 : ((j : Int)).toNat = j := Int.toNat_ofNat j
      rw [ih, hd, pieces, e1, Nat.sub_self, List.take_zero, List.drop_zero,
        pieces_cons_gt v rest j _ hgt]
      congr 1
      simp only [glue, List.append_nil, List.length_append, List.length_cons, List.length_nil,
        List.append_assoc, List.singleton_append, PolyState.mk.injEq, and_true]
      push_cast
      omega
    · have hgt : ∀ r ∈ ps.drop numParts, (j : Int) < r := by
        intro r hr
        cases hd : ps.drop numParts with
        | nil => rw [hd] at hr; exact absurd hr (List.not_mem_nil r)
        | cons r0 rs =>
          obtain ⟨f1, f2, -⟩ := drop_cons_facts hd
          have hne : r0 ≠ (j : Int) := fun hc => hit ⟨f2, by rw [f1, hc]⟩
          have h0 := (hb r0 (by rw [hd]; exact List.mem_cons_self _ _)).1
          rw [hd] at hr hpw
          rcases List.mem_cons.mp hr with rfl | hr2
          · omega
          · have := (List.pairwise_cons.mp hpw).1 r hr2
            omega
      have ih := readVertices_pieces ps rest (j + 1) numParts done (cur ++ [v]) (by omega) hpw
        (fun r hr => by
          have h1 := hgt r hr
          have h2 := (hb r hr).2
          simp only [List.length_cons] at h2
          push_cast at h2 ⊢
          omega)
      rw [readVertices, vertexStep_pass ps j v numParts done cur hj hit]
      simp only
      rw [ih, pieces_cons_gt v rest j _ hgt, glue_glue]

end ShapeMask

/-! ## Reading the shapes: one shape, then all of them -/

namespace ShapeMask

/-- Cutting at the start offsets gives the slice of every part. -/
theorem pieces_eq_zipWith (vs : List (ℚ × ℚ)) : ∀ (starts : List Int) (j : Nat),
    (((j : Int)) :: starts).Pairwise (fun a b => a < b) →
    pieces (vs.drop j) j starts
      = List.zipWith (fun (a b : Nat) => (vs.drop a).take (b - a))
          (j :: starts.map Int.toNat) (starts.map Int.toNat ++ [vs.length])
  | [], j, _ => by
    simp only [pieces, List.map_nil, List.nil_append, List.zipWith_cons_cons, List.zipWith_nil_left]
    rw [List.take_of_length_le (by rw [List.length_drop])]
  | r :: starts, j, hpw => by
    have hjr : (j : Int) < r := (List.pairwise_cons.mp hpw).1 r (List.mem_cons_self _ _)
    have hcast : ((r.toNat : Nat) : Int) = r := Int.toNat_of_nonneg (by omega)
    have hpw2 : (((r.toNat : Nat) : Int) :: starts).Pairwise (fun a b => a < b) := by
      rw [hcast]
      exact (List.pairwise_cons.mp hpw).2
    have ih := pieces_eq_zipWith vs starts r.toNat hpw2
    have hd : (vs.drop j).drop (r.toNat - j) = vs.drop r.toNat := by
      rw [List.drop_drop]
      congr 1
      omega
    rw [pieces, hd, ih]
    simp only [List.map_cons, List.cons_append, List.zipWith_cons_cons]

/-- For a shape whose start offsets begin at 0 and increase strictly, the part
slices are the cuts of the vertex list at the later offsets. -/
theorem partSlices_eq_pieces (vs : List (ℚ × ℚ)) (starts : List Int)
    (hpw : ((0 : Int) :: starts).Pairwise (fun a b => a < b)) :
    partSlices { vertices := vs, panPartStart := 0 :: starts } = pieces vs 0 starts := by
  have h := pieces_eq_zipWith vs starts 0 hpw
  rw [List.drop_zero] at h
  rw [h]
  simp [partSlices]

/-- The slices follow each other without gap or overlap: together they are the vertices. -/
theorem pieces_flatten : ∀ (starts : List Int) (rest : List (ℚ × ℚ)) (j : Nat),
    (pieces rest j starts).flatten = rest
  | [], rest, _ => by simp [pieces]
  | r :: starts, rest, j => by
    rw [pieces, List.flatten_cons, pieces_flatten starts, List.take_append_drop]

/-- When every part spans at least 2 vertices, so does every slice. -/
theorem pieces_two : ∀ (starts : List Int) (rest : List (ℚ × ℚ)) (j : Nat),
    2 ≤ rest.length →
    (((j : Int)) :: starts).Pairwise (fun a b => a + 2 ≤ b) →
    (∀ r ∈ starts, r + 2 ≤ (j : Int) + (rest.length : Int)) →
    ∀ p ∈ pieces rest j starts, 2 ≤ p.length
  | [], rest, _, h2, _, _ => by
    intro p hp
    rw [pieces, List.mem_singleton] at hp
    rw [hp]
    exact h2
  | r :: starts, rest, j, _, hpw, hb => by
    have hjr : (j : Int) + 2 ≤ r := (List.pairwise_cons.mp hpw).1 r (List.mem_cons_self _ _)
    have hrb := hb r (List.mem_cons_self _ _)
    have hcast : ((r.toNat : Nat) : Int) = r := Int.toNat_of_nonneg (by omega)
    have hlen : (rest.drop (r.toNat - j)).length = rest.length - (r.toNat - j) := List.length_drop _ _
    have ih := pieces_two starts (rest.drop (r.toNat - j)) r.toNat (by omega)
      (by rw [hcast]; exact (List.pairwise_cons.mp hpw).2)
      (fun r2 hr2 => by
        have := hb r2 (List.mem_cons_of_mem _ hr2)
        rw [hlen]
        omega)
    intro p hp
    rw [pieces, List.mem_cons] at hp
    rcases hp with rfl | hp
    · rw [List.length_take]
      omega
    · exact ih p hp

/-- A shape with at least 2 vertices and well-formed part offsets adds the
slices of its parts after the rings read so far. -/
theorem readShape_wellFormed (shape : Shape) (store : List Ring)
    (h2 : 2 ≤ shape.vertices.length) (hw : WellFormedParts shape) :
    readShape shape { num_poly := (store.length : Int) - 1, poly := store }
      = some { num_poly := ((store ++ partSlices shape).length : Int) - 1,
               poly := store ++ partSlices shape } := by
  obtain ⟨vs, ps⟩ := shape
  obtain ⟨hhead, hpw, hb⟩ := hw
  simp only at h2 hhead hpw hb
  obtain ⟨starts, rfl⟩ := List.head?_eq_some_iff.mp hhead
  cases vs with
  | nil => simp at h2
  | cons v0 rest =>
    have hgt : ∀ r ∈ starts, ((0 : Nat) : Int) < r :=
      fun r hr => (List.pairwise_cons.mp hpw).1 r hr
    have hfirst : ¬ (1 < ((0 : Int) :: starts).length ∧ ((0 : Int) :: starts)[1]? = some (0 : Int)) := by
      rintro ⟨-, hc⟩
      cases starts with
      | nil => simp at hc
      | cons r rs =>
        have := hgt r (List.mem_cons_self _ _)
        simp at hc
        omega
    have hloop := readVertices_pieces ((0 : Int) :: starts) rest 1 1 store [v0] (Nat.le_refl 1)
      (by simpa using (List.pairwise_cons.mp hpw).2)
      (fun r hr => by
        have hr2 : r ∈ starts := by simpa using hr
        have h1 := hgt r hr2
        have h3 := hb r (List.mem_cons_of_mem _ hr2)
        simp only [List.length_cons] at h3
        push_cast at h1 h3 ⊢
        omega)
    have hdrop : ((0 : Int) :: starts).drop 1 = starts := rfl
    rw [hdrop] at hloop
    unfold readShape
    simp only
    rw [if_pos h2, readVertices,
      vertexStep_first ((0 : Int) :: starts) v0 1 store (by simp) hfirst]
    simp only
    rw [hloop, partSlices_eq_pieces (v0 :: rest) starts hpw, pieces_cons_gt v0 rest 0 starts hgt]
    congr 1
    have hl : (glue [v0] (pieces rest (0 + 1) starts)).length = starts.length + 1 := by
      have := pieces_length starts (v0 :: rest) 0
      rw [pieces_cons_gt v0 rest 0 starts hgt] at this
      exact this
    simp only [PolyState.mk.injEq, and_true, List.length_append, hl]
    push_cast
    omega

/-- The store that the claim describes: the part slices of every shape with at
least 2 vertices, in input order. -/
theorem readShapesFrom_wellFormed : ∀ (shapes : List Shape) (store : List Ring),
    (∀ s ∈ shapes, 2 ≤ s.vertices.length → WellFormedParts s) →
    readShapesFrom shapes { num_poly := (store.length : Int) - 1, poly := store }
      = some { num_poly := ((store ++ (shapes.filter
                  (fun s => decide (2 ≤ s.vertices.length))).flatMap partSlices).length : Int) - 1,
               poly := store ++ (shapes.filter
                  (fun s => decide (2 ≤ s.vertices.length))).flatMap partSlices }
  | [], store, _ => by simp [readShapesFrom]
  | shape :: rest, store, h => by
    have hrest : ∀ s ∈ rest, 2 ≤ s.vertices.length → WellFormedParts s :=
      fun s hs => h s (List.mem_cons_of_mem _ hs)
    by_cases h2 : 2 ≤ shape.vertices.length
    · have hw := h shape (List.mem_cons_self _ _) h2
      have ih := readShapesFrom_wellFormed rest (store ++ partSlices shape) hrest
      rw [readShapesFrom, readShape_wellFormed shape store h2 hw]
      simp only
      rw [ih, List.filter_cons, if_pos (by simpa using h2), List.flatMap_cons, List.append_assoc]
    · have ih := readShapesFrom_wellFormed rest store hrest
      have hskip : readShape shape { num_poly := (store.length : Int) - 1, poly := store }
          = some { num_poly := (store.length : Int) - 1, poly := store } := by
        unfold readShape
        rw [if_neg h2]
      rw [readShapesFrom, hskip]
      simp only
      rw [ih, List.filter_cons, if_neg (by simpa using h2)]

end ShapeMask

/-! ## The ring store: the claims -/

namespace ShapeMask

/-- For shapes with well-formed part offsets, reading ends with the part
slices of the shapes with at least 2 vertices, and `num_poly` their number. -/
theorem readShapes_wellFormed (shapes : List Shape)
    (h : ∀ s ∈ shapes, 2 ≤ s.vertices.length → WellFormedParts s) :
    readShapes shapes
      = some ((((shapes.filter (fun s => decide (2 ≤ s.vertices.length))).flatMap partSlices).length : Int),
          (shapes.filter (fun s => decide (2 ≤ s.vertices.length))).flatMap partSlices) := by
  have h0 := readShapesFrom_wellFormed shapes [] h
  have e : ({ num_poly := (([] : List Ring).length : Int) - 1, poly := [] } : PolyState)
      = { num_poly := -1, poly := [] } := rfl
  rw [e] at h0
  unfold readShapes
  rw [h0]
  simp

/-- A shape with well-formed part offsets has one slice per part, and the
slices joined are its vertices. -/
theorem partSlices_wellFormed (shape : Shape) (hw : WellFormedParts shape) :
    (partSlices shape).length = shape.panPartStart.length ∧
      (partSlices shape).flatten = shape.vertices := by
  obtain ⟨vs, ps⟩ := shape
  obtain ⟨hhead, hpw, -⟩ := hw
  simp only at hhead hpw
  obtain ⟨starts, rfl⟩ := List.head?_eq_some_iff.mp hhead
  rw [partSlices_eq_pieces vs starts hpw, pieces_length, pieces_flatten]
  exact ⟨rfl, rfl⟩

/-- C14 (ring store construction).  For every list of shapes in which each
shape with at least 2 vertices has part start offsets that begin at 0, are
strictly increasing and are below its vertex count, the reading loop ends
with, in input order, the contiguous vertex slices of each part of each shape
that has at least 2 vertices; a shape contributes one slice per part and its
slices joined are its vertices; and the final ring count is the number of
rings stored, the sum of the part counts of those shapes. -/
theorem ring_store_construction (shapes : List Shape)
    (h : ∀ s ∈ shapes, 2 ≤ s.vertices.length → WellFormedParts s) :
    ∃ (N : Int) (store : RingStore), readShapes shapes = some (N, store) ∧
      store = (shapes.filter (fun s => decide (2 ≤ s.vertices.length))).flatMap partSlices ∧
      N = (store.length : Int) ∧
      N = ((((shapes.filter (fun s => decide (2 ≤ s.vertices.length))).map
              (fun s => s.panPartStart.length)).sum : Nat) : Int) ∧
      ∀ s ∈ shapes, 2 ≤ s.vertices.length →
        (partSlices s).length = s.panPartStart.length ∧ (partSlices s).flatten = s.vertices := by
  refine ⟨_, _, readShapes_wellFormed shapes h, rfl, rfl, ?_, ?_⟩
  · rw [List.length_flatMap]
    congr 2
    apply List.map_congr_left
    intro s hs
    obtain ⟨hs1, hs2⟩ := List.mem_filter.mp hs
    exact (partSlices_wellFormed s (h s hs1 (by simpa using hs2))).1
  · intro s hs h2
    exact partSlices_wellFormed s (h s hs h2)

/-- Witness for C14: the three sample shapes give the rings of vertices 0-1 and
2-4 of the first shape and the ring of the third shape. -/
theorem ring_store_construction_witness :
    (∀ s ∈ sampleShapes, 2 ≤ s.vertices.length → WellFormedParts s) ∧
    ∃ (N : Int) (store : RingStore), readShapes sampleShapes = some (N, store) ∧
      store = (sampleShapes.filter (fun s => decide (2 ≤ s.vertices.length))).flatMap partSlices ∧
      N = (store.length : Int) ∧
      N = ((((sampleShapes.filter (fun s => decide (2 ≤ s.vertices.length))).map
              (fun s => s.panPartStart.length)).sum : Nat) : Int) ∧
      ∀ s ∈ sampleShapes, 2 ≤ s.vertices.length →
        (partSlices s).length = s.panPartStart.length ∧ (partSlices s).flatten = s.vertices :=
  ⟨by decide!, ring_store_construction sampleShapes (by decide!)⟩

/-- C13 (counterexample).  A shape with three vertices and parts starting at 0
and 2 gives a ring store whose second ring has a single vertex. -/
theorem ring_size_counterexample :
    readShapes [{ vertices := [(0, 0), (1, 0), (2, 0)], panPartStart := [0, 2] }]
        = some (2, [[(0, 0), (1, 0)], [(2, 0)]]) ∧
      ∃ ring ∈ ([[(0, 0), (1, 0)], [(2, 0)]] : RingStore), ¬ 2 ≤ ring.length := by
  refine ⟨by decide!, [(2, 0)], by simp, by decide⟩

/-- C13 (amended).  For every list of shapes in which each shape with at least
2 vertices has well-formed part offsets and every part spans at least 2
vertices, the reading loop ends and every ring of the store has at least 2
vertices. -/
theorem ring_size_of_parts (shapes : List Shape)
    (h : ∀ s ∈ shapes, 2 ≤ s.vertices.length → WellFormedParts s ∧ PartsOfTwo s) :
    ∃ (N : Int) (store : RingStore), readShapes shapes = some (N, store) ∧
      ∀ ring ∈ store, 2 ≤ ring.length := by
  refine ⟨_, _, readShapes_wellFormed shapes (fun s hs h2 => (h s hs h2).1), ?_⟩
  intro ring hring
  obtain ⟨s, hs, hmem⟩ := List.mem_flatMap.mp hring
  obtain ⟨hs1, hs2⟩ := List.mem_filter.mp hs
  have h2 : 2 ≤ s.vertices.length := by simpa using hs2
  obtain ⟨⟨hhead, hpw, -⟩, hp2, hb2⟩ := h s hs1 h2
  obtain ⟨vs, ps⟩ := s
  simp only at h2 hhead hpw hp2 hb2 hmem
  obtain ⟨starts, rfl⟩ := List.head?_eq_some_iff.mp hhead
  rw [partSlices_eq_pieces vs starts hpw] at hmem
  refine pieces_two starts vs 0 h2 hp2 ?_ ring hmem
  intro r hr
  have := hb2 r (List.mem_cons_of_mem _ hr)
  push_cast
  omega

/-- Witness for C13 (amended): the three sample shapes. -/
theorem ring_size_of_parts_witness :
    (∀ s ∈ sampleShapes, 2 ≤ s.vertices.length → WellFormedParts s ∧ PartsOfTwo s) ∧
    ∃ (N : Int) (store : RingStore), readShapes sampleShapes = some (N, store) ∧
      ∀ ring ∈ store, 2 ≤ ring.length :=
  ⟨by decide!, ring_size_of_parts sampleShapes (by decide!)⟩

/-- C18 (evaluation at the failing inputs).  A first shape with 2 vertices and
no part makes the loop store its first vertex in ring `num_poly = -1`, which
is no entry of the arrays; after a shape with one part, a shape with 2
vertices and no part has its vertices appended to the ring of the earlier
shape. -/
theorem no_part_shape_evaluation :
    readShapes [{ vertices := [(0, 0), (1, 0)], panPartStart := [] }] = none ∧
    vertexStep [] 0 (0, 0) 1 { num_poly := -1, poly := [] } = none ∧
    readShapes [ { vertices := [(0, 0), (1, 0)], panPartStart := [0] },
                 { vertices := [(5, 5), (6, 6)], panPartStart := [] } ]
      = some (1, [[(0, 0), (1, 0), (5, 5), (6, 6)]]) := by
  decide!

end ShapeMask
